import Mathlib

/-!
Verification of the skill-synchronization script (`scripts/sync-skills.py`).

The script mirrors "skill" files and directory trees from remote GitHub
repositories into a local directory tree, driven by a manifest.  This file
gives a shallow embedding of the script's data model and operations:

* the local filesystem is a finite map from paths (lists of name components)
  to byte strings, together with the set of existing directories;
* the remote side of one skill is a tree: each file node carries the outcome
  of its raw download (`none` models a logged HTTP/transport failure of
  `download_file`), and each directory node carries the outcome of its
  listing fetch (HTTP error, transport error, a response body that is not
  valid JSON, or a well-formed JSON array of entries);
* exceptions that the Python code can raise past a function boundary are
  modelled with `Except`: `json.loads` raising `json.JSONDecodeError` (a
  `ValueError`, which the `except urllib.error...` clauses of
  `fetch_directory_contents` do not catch), and `Path.read_bytes` raising
  `IsADirectoryError` when the destination path of `sync_file` is an
  existing directory;
* network traffic is counted: every `urllib.request.urlopen` call (one per
  `download_file` or `fetch_directory_contents` invocation) increments a
  counter, so "performs zero network calls" is a statement about the state.

Idealization: POSIX-level failures of the out-of-scope filesystem layer
(e.g. `mkdir` under a path component that is a regular file) are not
modelled; directories and files live in independent tables.
-/

namespace SyncSkills

/-- A filesystem or remote path, as its list of name components. -/
abbrev Path := List String

/-- File contents, as a list of byte values. -/
abbrev Bytes := List Nat

/-- All proper prefixes of a path: the chain of ancestor directories that
`dest_path.parent.mkdir(parents=True, exist_ok=True)` creates. -/
def strictPrefixes (p : Path) : List Path :=
  (List.range p.length).map (fun k => p.take k)

/-- Strict comparison of characters by code point, as Python compares the
characters of path strings. -/
def charLTb (a b : Char) : Bool := a.toNat < b.toNat

/-- Strict lexicographic comparison of character lists by code point:
Python's `<` on strings. -/
def strLTb : List Char → List Char → Bool
  | [], [] => false
  | [], _ :: _ => true
  | _ :: _, [] => false
  | a :: as, b :: bs =>
    if charLTb a b then true else if charLTb b a then false else strLTb as bs

/-- Lexicographic comparison of paths by components, mirroring how `sorted`
orders the `Path` objects produced by `rglob` (component-wise, each
component compared by code points). -/
def pathLEb : Path → Path → Bool
  | [], _ => true
  | _ :: _, [] => false
  | a :: as, b :: bs =>
    if strLTb a.data b.data then true
    else if strLTb b.data a.data then false
    else pathLEb as bs

/-- The ordering relation used to sort path lists. -/
def pLE (p q : Path) : Prop := pathLEb p q = true

instance : DecidableRel pLE := fun p q => inferInstanceAs (Decidable (pathLEb p q = true))

/-- `sorted(...)` on a list of paths. -/
def sortPaths (l : List Path) : List Path := List.insertionSort pLE l

/-- The local filesystem: regular files with their contents, and the set of
existing directories. -/
structure FS where
  files : List (Path × Bytes)
  dirs : List Path
  deriving DecidableEq, Repr

/-- `Path.read_bytes()` on a regular file; `none` when no regular file is at
`p` (for an existing directory the caller's `read_bytes` raises). -/
def FS.read_bytes (fs : FS) (p : Path) : Option Bytes := fs.files.lookup p

/-- `Path.is_file()`. -/
def FS.isFile (fs : FS) (p : Path) : Bool := (fs.read_bytes p).isSome

/-- `Path.is_dir()`. -/
def FS.isDir (fs : FS) (p : Path) : Bool := fs.dirs.contains p

/-- `Path.exists()`: true for a regular file or a directory. -/
def FS.pathExists (fs : FS) (p : Path) : Bool := fs.isFile p || fs.isDir p

/-- `dest_path.parent.mkdir(parents=True, exist_ok=True)`: create every
ancestor directory of `p` that does not exist yet. -/
def FS.mkdirParents (fs : FS) (p : Path) : FS :=
  { fs with
    dirs := (strictPrefixes p).foldl (fun ds d => if ds.contains d then ds else ds ++ [d]) fs.dirs }

/-- `dest_path.write_bytes(content)` preceded by the parent `mkdir`: create
the ancestor directories, then overwrite the file at `p`. -/
def FS.write_bytes (fs : FS) (p : Path) (c : Bytes) : FS :=
  let fs' := fs.mkdirParents p
  { fs' with files := (p, c) :: fs'.files.filter (fun e => !(e.1 == p)) }

/-- `Path.unlink()`: remove the regular file at `p`. -/
def FS.unlink (fs : FS) (p : Path) : FS :=
  { fs with files := fs.files.filter (fun e => !(e.1 == p)) }

/-- `Path.rmdir()`: remove the directory at `p` (callers only invoke it on an
existing empty directory). -/
def FS.rmdir (fs : FS) (p : Path) : FS :=
  { fs with dirs := fs.dirs.filter (fun d => !(d == p)) }

/-- Every existing path of the filesystem (files and directories). -/
def FS.allPaths (fs : FS) : List Path := fs.files.map Prod.fst ++ fs.dirs

/-- `dest_path.rglob("*")`: every existing path strictly below `dest`, each
listed once. -/
def FS.rglob (fs : FS) (dest : Path) : List Path :=
  (fs.allPaths.filter (fun p => dest.isPrefixOf p && !(p == dest))).dedup

/-- `any(dirpath.iterdir())`: does `d` have a direct child? -/
def FS.hasChild (fs : FS) (d : Path) : Bool :=
  fs.allPaths.any (fun q => (q.length == d.length + 1) && d.isPrefixOf q)

/-- Well-formedness of a filesystem state as a real filesystem would
maintain it: every strict prefix of an existing path is a directory. -/
def FS.ClosedB (fs : FS) : Bool :=
  fs.allPaths.all (fun p => (strictPrefixes p).all (fun q => fs.dirs.contains q))

/-- Exceptions that can propagate out of the script's functions. -/
inductive Exn where
  /-- `json.JSONDecodeError` raised by `json.loads` in
  `fetch_directory_contents` (not caught by its `except` clauses). -/
  | jsonDecode
  /-- `IsADirectoryError` raised by `dest_path.read_bytes()` in `sync_file`
  when the destination path exists but is a directory. -/
  | isADirectory
  deriving DecidableEq, Repr

/-- Mutable world state threaded through the run: the filesystem and the
number of network requests (`urllib.request.urlopen` calls) made so far. -/
structure St where
  fs : FS
  net : Nat
  deriving DecidableEq, Repr

/-- Record one network request. -/
def bump (st : St) : St := { st with net := st.net + 1 }

mutual
/-- One entry of a remote directory tree, as the sync engine observes it.
A `file` node carries the outcome its raw-content download will have
(`none`: `download_file` hits an HTTP/transport error, logs it and returns
`None`).  A `dir` node carries the outcome of listing it.  `other` is an
entry whose `type` field is neither `"file"` nor `"dir"`, which the loop in
`sync_directory` skips. -/
inductive RTree : Type where
  | file (download : Option Bytes)
  | dir (listing : ListingOutcome)
  | other

/-- Outcome of fetching one directory listing from the contents API. -/
inductive ListingOutcome : Type where
  /-- `urllib.error.HTTPError`: caught and logged, `None` returned. -/
  | httpError
  /-- `urllib.error.URLError`: caught and logged, `None` returned. -/
  | urlError
  /-- The HTTP request succeeds but the body is not valid JSON. -/
  | badJson
  /-- The body parses as a JSON array of entries. -/
  | entries (es : EntryList)

/-- The entries of one listing, in response order; each has its `name`
field and its subtree. -/
inductive EntryList : Type where
  | nil
  | cons (name : String) (t : RTree) (rest : EntryList)
end

/-- `download_file`: one GET against the raw-content URL.  Both
`urllib.error` variants are caught and logged, yielding `None`; otherwise
the body bytes are returned.  The predetermined outcome is consumed and the
request is counted. -/
def download_file (outcome : Option Bytes) (st : St) : Option Bytes × St :=
  (outcome, bump st)

/-- `fetch_directory_contents`: one GET against the contents-API URL, then
`json.loads` on the body.  `HTTPError`/`URLError` are caught and logged,
yielding `None`; a body that is not valid JSON raises `JSONDecodeError`,
which no `except` clause catches. -/
def fetch_directory_contents (lo : ListingOutcome) (st : St) :
    Except Exn (Option EntryList) × St :=
  match lo with
  | .httpError => (.ok none, bump st)
  | .urlError => (.ok none, bump st)
  | .badJson => (.error .jsonDecode, bump st)
  | .entries es => (.ok (some es), bump st)

/-- `sync_file(repo, branch, src_path, dest_path)`: download the remote
bytes; on download failure return `False`; if the destination exists with
identical bytes return `False`; otherwise create parents, write, return
`True`.  `dest_path.exists()` is also true for a directory, in which case
`dest_path.read_bytes()` raises `IsADirectoryError`. -/
def sync_file (outcome : Option Bytes) (dest : Path) (st0 : St) : Except Exn (Bool × St) :=
  match download_file outcome st0 with
  | (none, st) => .ok (false, st)
  | (some content, st) =>
    if st.fs.pathExists dest then
      match st.fs.read_bytes dest with
      | some existing =>
        if existing == content then .ok (false, st)
        else .ok (true, { st with fs := st.fs.write_bytes dest content })
      | none => .error .isADirectory
    else .ok (true, { st with fs := st.fs.write_bytes dest content })

/-- Result of `sync_directory`: the `updated` list, the set of synced
destination paths (as the list of its insertions), and the world state. -/
structure DirOut where
  updated : List Path
  synced : List Path
  st : St
  deriving DecidableEq, Repr

mutual
/-- `sync_directory(repo, branch, src_path, dest_path)`: fetch the listing
(one counted request); a caught fetch failure yields empty results; a
JSON-decode failure propagates; otherwise process the entries.  The case
split on the listing outcome inlines `fetch_directory_contents`; the lemma
`sync_directory_eq_fetch` below states the two forms equal. -/
def sync_directory (lo : ListingOutcome) (dest : Path) (st : St) : Except Exn DirOut :=
  match lo with
  | .badJson => .error .jsonDecode
  | .httpError => .ok ⟨[], [], bump st⟩
  | .urlError => .ok ⟨[], [], bump st⟩
  | .entries es => syncEntries es dest (bump st)

/-- The `for item in contents` loop body of `sync_directory`: a `file` entry
is added to the synced set and synced (appending to `updated` if changed); a
`dir` entry recurses and merges both result lists; any other entry type is
skipped.  A raised exception aborts the whole loop. -/
def syncEntries (es : EntryList) (dest : Path) (st : St) : Except Exn DirOut :=
  match es with
  | .nil => .ok ⟨[], [], st⟩
  | .cons nm t rest =>
    let itemDest := dest ++ [nm]
    match t with
    | .file dl =>
      match sync_file dl itemDest st with
      | .error e => .error e
      | .ok (upd, st1) =>
        match syncEntries rest dest st1 with
        | .error e => .error e
        | .ok o => .ok ⟨(if upd then [itemDest] else []) ++ o.updated, itemDest :: o.synced, o.st⟩
    | .dir lo =>
      match sync_directory lo itemDest st with
      | .error e => .error e
      | .ok o1 =>
        match syncEntries rest dest o1.st with
        | .error e => .error e
        | .ok o2 => .ok ⟨o1.updated ++ o2.updated, o1.synced ++ o2.synced, o2.st⟩
    | .other => syncEntries rest dest st
end

/-- The first loop of `remove_stale_files`: walk the (sorted) paths below
the destination; delete every regular file not in the synced set, recording
it in `removed`. -/
def removeFilesPass (synced : List Path) : List Path → List Path × FS → List Path × FS
  | [], acc => acc
  | p :: ps, (removed, g) =>
    if g.isFile p && !(synced.contains p)
    then removeFilesPass synced ps (removed ++ [p], g.unlink p)
    else removeFilesPass synced ps (removed, g)

/-- The second loop of `remove_stale_files`: walk the given paths and remove
each one that is an empty directory at that moment. -/
def removeDirsPass : List Path → FS → FS
  | [], g => g
  | p :: ps, g => removeDirsPass ps (if g.isDir p && !(g.hasChild p) then g.rmdir p else g)

/-- `remove_stale_files(dest_path, synced_paths)`: nothing to prune when the
destination does not exist; otherwise delete stale files in sorted `rglob`
order, then delete now-empty directories in reverse sorted order. -/
def remove_stale_files (dest : Path) (synced : List Path) (fs : FS) : List Path × FS :=
  if fs.pathExists dest then
    let pass1 := removeFilesPass synced (sortPaths (fs.rglob dest)) ([], fs)
    let fs2 := removeDirsPass ((sortPaths (pass1.2.rglob dest)).reverse) pass1.2
    (pass1.1, fs2)
  else ([], fs)

/-- The source of one skill.  In the script the mode is chosen by
`src_path.endswith("/")`: a trailing separator selects directory mode.  The
constructor records that choice together with the remote tree behind it. -/
inductive SkillSource : Type where
  | fileMode (download : Option Bytes)
  | dirMode (listing : ListingOutcome)

/-- One manifest entry: `name`, `source` (repo/branch/path condensed to the
observable remote behaviour) and `destination`. -/
structure Skill where
  name : String
  source : SkillSource
  destination : Path

/-- `sync_skill(skill)`: directory mode runs `sync_directory` and then
`remove_stale_files` with the synced set; file mode runs `sync_file` once,
reporting the destination when updated, and never removes anything. -/
def sync_skill (sk : Skill) (st : St) : Except Exn ((List Path × List Path) × St) :=
  match sk.source with
  | .dirMode lo =>
    match sync_directory lo sk.destination st with
    | .error e => .error e
    | .ok o =>
      let pruned := remove_stale_files sk.destination o.synced o.st.fs
      .ok ((o.updated, pruned.1), { o.st with fs := pruned.2 })
  | .fileMode dl =>
    match sync_file dl sk.destination st with
    | .error e => .error e
    | .ok (upd, st') => .ok (((if upd then [sk.destination] else []), []), st')

/-- Aggregated report of a run: all updated paths, all removed paths, the
names of changed skills, and the final world state. -/
structure RunOut where
  allUpdated : List Path
  allRemoved : List Path
  changedSkills : List String
  st : St
  deriving DecidableEq, Repr

/-- The `for skill in skills` loop of `main`: sync each skill in manifest
order; when a skill reports a change, extend the aggregate lists and record
its name.  An exception raised inside one skill aborts the whole loop. -/
def processSkills : List Skill → St → Except Exn RunOut
  | [], st => .ok ⟨[], [], [], st⟩
  | sk :: rest, st =>
    match sync_skill sk st with
    | .error e => .error e
    | .ok ((upd, rem), st') =>
      match processSkills rest st' with
      | .error e => .error e
      | .ok o =>
        if upd ≠ [] ∨ rem ≠ [] then
          .ok ⟨upd ++ o.allUpdated, rem ++ o.allRemoved, sk.name :: o.changedSkills, o.st⟩
        else
          .ok ⟨o.allUpdated, o.allRemoved, o.changedSkills, o.st⟩

/-- `main()`: exit code 1 when the manifest file is absent; exit code 0 when
the manifest has no skills; otherwise process every skill and finish with
exit code 0.  An uncaught exception is the `Except.error` case. -/
def main (manifestExists : Bool) (skills : List Skill) (st : St) :
    Except Exn (Nat × RunOut) :=
  if !manifestExists then .ok (1, ⟨[], [], [], st⟩)
  else if skills.isEmpty then .ok (0, ⟨[], [], [], st⟩)
  else
    match processSkills skills st with
    | .error e => .error e
    | .ok o => .ok (0, o)

mutual
/-- The pairs (destination path of a file entry, its download outcome), in
traversal order, over a whole listing outcome.  A failed or skipped listing
contributes nothing, exactly as the sync loop never reaches its entries. -/
def listingDownloads : ListingOutcome → Path → List (Path × Option Bytes)
  | .entries es, dest => entriesDownloads es dest
  | _, _ => []

/-- The pairs (destination path of a file entry, its download outcome) of an
entry list and everything below it. -/
def entriesDownloads : EntryList → Path → List (Path × Option Bytes)
  | .nil, _ => []
  | .cons nm (.file dl) rest, dest => (dest ++ [nm], dl) :: entriesDownloads rest dest
  | .cons nm (.dir lo) rest, dest =>
    listingDownloads lo (dest ++ [nm]) ++ entriesDownloads rest dest
  | .cons _ .other rest, dest => entriesDownloads rest dest
end

/-- The destination paths of all file entries below a listing outcome. -/
def listingTargets (lo : ListingOutcome) (dest : Path) : List Path :=
  (listingDownloads lo dest).map Prod.fst

/-- The destination paths of all file entries of an entry list. -/
def entriesTargets (es : EntryList) (dest : Path) : List Path :=
  (entriesDownloads es dest).map Prod.fst

mutual
/-- No reachable listing in the tree has a response body that fails JSON
parsing (reachable: the sync loop recurses only into `dir` entries). -/
def listingClean : ListingOutcome → Bool
  | .badJson => false
  | .entries es => entriesClean es
  | _ => true

/-- No reachable listing below any entry has an invalid-JSON body. -/
def entriesClean : EntryList → Bool
  | .nil => true
  | .cons _ (.dir lo) rest => listingClean lo && entriesClean rest
  | .cons _ _ rest => entriesClean rest
end

mutual
/-- Every fetch below the tree succeeds: every listing returns entries and
every file download returns bytes. -/
def listingAllOk : ListingOutcome → Bool
  | .entries es => entriesAllOk es
  | _ => false

/-- Every fetch below every entry of the list succeeds. -/
def entriesAllOk : EntryList → Bool
  | .nil => true
  | .cons _ (.file dl) rest => dl.isSome && entriesAllOk rest
  | .cons _ (.dir lo) rest => listingAllOk lo && entriesAllOk rest
  | .cons _ .other rest => entriesAllOk rest
end

/-- The download outcomes a skill's sync will attempt: the single file in
file mode, the reachable file entries in directory mode. -/
def skillDownloads : Skill → List (Path × Option Bytes)
  | ⟨_, .fileMode dl, dest⟩ => [(dest, dl)]
  | ⟨_, .dirMode lo, dest⟩ => listingDownloads lo dest

/-- The destination paths a skill's sync will write through `sync_file`. -/
def skillTargets (sk : Skill) : List Path := (skillDownloads sk).map Prod.fst

/-- All fetches of a skill succeed. -/
def skillAllOk : Skill → Bool
  | ⟨_, .fileMode dl, _⟩ => dl.isSome
  | ⟨_, .dirMode lo, _⟩ => listingAllOk lo

/-- No listing reachable from the skill has an invalid-JSON body. -/
def skillClean : Skill → Bool
  | ⟨_, .fileMode _, _⟩ => true
  | ⟨_, .dirMode lo, _⟩ => listingClean lo

/-- `sync_directory` is the composition of `fetch_directory_contents` with
the entry loop: the inlined case split used for its definition agrees with
calling the fetcher first. -/
theorem sync_directory_eq_fetch (lo : ListingOutcome) (dest : Path) (st : St) :
    sync_directory lo dest st =
      match fetch_directory_contents lo st with
      | (.error e, _) => .error e
      | (.ok none, st') => .ok ⟨[], [], st'⟩
      | (.ok (some es), st') => syncEntries es dest st' := by
  cases lo <;> rfl

/-! ## Path order and prefix lemmas -/

/-- `p` lies strictly below the directory `dest`. -/
def Below (dest p : Path) : Prop := dest <+: p ∧ p ≠ dest

lemma contains_iff {l : List Path} {p : Path} : l.contains p = true ↔ p ∈ l := by
  show List.elem p l = true ↔ p ∈ l
  exact List.elem_iff

lemma isPrefixOf_eq_true {p q : Path} : p.isPrefixOf q = true ↔ p <+: q :=
  List.isPrefixOf_iff_prefix

lemma charLTb_asymm {a b : Char} (h : charLTb a b = true) : charLTb b a = false := by
  simp [charLTb] at h ⊢
  omega

lemma charLTb_trans {a b c : Char} (h1 : charLTb a b = true) (h2 : charLTb b c = true) :
    charLTb a c = true := by
  simp [charLTb] at h1 h2 ⊢
  omega

lemma char_eq_of_not_lt {a b : Char} (h1 : charLTb a b = false)
    (h2 : charLTb b a = false) : a = b := by
  simp [charLTb] at h1 h2
  have htn : a.toNat = b.toNat := le_antisymm h2 h1
  have h3 : a.val = b.val := by
    unfold Char.toNat UInt32.toNat at htn
    exact UInt32.eq_of_val_eq (Fin.eq_of_val_eq htn)
  exact Char.eq_of_val_eq h3

lemma strLTb_irrefl (l : List Char) : strLTb l l = false := by
  induction l with
  | nil => rfl
  | cons a as ih => simp [strLTb, charLTb, ih]

lemma strLTb_trans {x y z : List Char} (h1 : strLTb x y = true)
    (h2 : strLTb y z = true) : strLTb x z = true := by
  induction x generalizing y z with
  | nil =>
    cases z with
    | nil =>
      cases y with
      | nil => exact h2
      | cons b bs => exact absurd h2 (by simp [strLTb])
    | cons c cs => rfl
  | cons a as ih =>
    cases y with
    | nil => exact absurd h1 (by simp [strLTb])
    | cons b bs =>
      cases z with
      | nil => exact absurd h2 (by simp [strLTb])
      | cons c cs =>
        simp only [strLTb] at h1 h2 ⊢
        cases hab : charLTb a b with
        | true =>
          cases hbc : charLTb b c with
          | true => rw [if_pos (by rw [charLTb_trans hab hbc])]
          | false =>
            rw [hbc, if_neg (by simp)] at h2
            cases hcb : charLTb c b with
            | true => rw [hcb, if_pos rfl] at h2; exact absurd h2 (by simp)
            | false =>
              rw [hcb, if_neg (by simp)] at h2
              obtain rfl := char_eq_of_not_lt hbc hcb
              rw [if_pos (by rw [hab])]
        | false =>
          rw [hab, if_neg (by simp)] at h1
          cases hba : charLTb b a with
          | true => rw [hba, if_pos rfl] at h1; exact absurd h1 (by simp)
          | false =>
            rw [hba, if_neg (by simp)] at h1
            obtain rfl := char_eq_of_not_lt hab hba
            cases hac : charLTb a c with
            | true => rfl
            | false =>
              rw [hac, if_neg (by simp)] at h2
              cases hca : charLTb c a with
              | true => rw [hca, if_pos rfl] at h2; exact absurd h2 (by simp)
              | false =>
                rw [hca, if_neg (by simp)] at h2
                rw [if_neg (by simp [hac]), if_neg (by simp [hca])]
                exact ih h1 h2

lemma strEq_of_not_lt : ∀ {x y : List Char},
    strLTb x y = false → strLTb y x = false → x = y
  | [], [], _, _ => rfl
  | [], _ :: _, h1, _ => absurd h1 (by simp [strLTb])
  | _ :: _, [], _, h2 => absurd h2 (by simp [strLTb])
  | a :: as, b :: bs, h1, h2 => by
    simp only [strLTb] at h1 h2
    cases hab : charLTb a b with
    | true => rw [hab, if_pos rfl] at h1; exact absurd h1 (by simp)
    | false =>
      cases hba : charLTb b a with
      | true => rw [hba, if_pos rfl] at h2; exact absurd h2 (by simp)
      | false =>
        rw [hab, if_neg (by simp), hba, if_neg (by simp)] at h1
        obtain rfl := char_eq_of_not_lt hab hba
        rw [hab, if_neg (by simp), if_neg (by simp)] at h2
        rw [strEq_of_not_lt h1 h2]

lemma str_eq_of_not_lt {a b : String} (h1 : strLTb a.data b.data = false)
    (h2 : strLTb b.data a.data = false) : a = b := by
  cases a with
  | mk la =>
    cases b with
    | mk lb =>
      have : la = lb := strEq_of_not_lt h1 h2
      rw [this]

lemma pathLEb_total (p q : Path) : pathLEb p q = true ∨ pathLEb q p = true := by
  induction p generalizing q with
  | nil => left; rfl
  | cons a as ih =>
    cases q with
    | nil => right; rfl
    | cons b bs =>
      simp only [pathLEb]
      cases hab : strLTb a.data b.data with
      | true => left; rw [if_pos rfl]
      | false =>
        cases hba : strLTb b.data a.data with
        | true => right; rw [if_pos rfl]
        | false =>
          obtain rfl := str_eq_of_not_lt hab hba
          rw [if_neg (by simp), if_neg (by simp), if_neg (by simp), if_neg (by simp)]
          exact ih bs

lemma pathLEb_trans {p q r : Path} (h1 : pathLEb p q = true) (h2 : pathLEb q r = true) :
    pathLEb p r = true := by
  induction p generalizing q r with
  | nil => rfl
  | cons a as ih =>
    cases q with
    | nil => exact absurd h1 (by simp [pathLEb])
    | cons b bs =>
      cases r with
      | nil => exact absurd h2 (by simp [pathLEb])
      | cons c cs =>
        simp only [pathLEb] at h1 h2 ⊢
        cases hab : strLTb a.data b.data with
        | true =>
          cases hbc : strLTb b.data c.data with
          | true => rw [if_pos (by rw [strLTb_trans hab hbc])]
          | false =>
            rw [hbc, if_neg (by simp)] at h2
            cases hcb : strLTb c.data b.data with
            | true => rw [hcb, if_pos rfl] at h2; exact absurd h2 (by simp)
            | false =>
              obtain rfl := str_eq_of_not_lt hbc hcb
              rw [if_pos (by rw [hab])]
        | false =>
          rw [hab, if_neg (by simp)] at h1
          cases hba : strLTb b.data a.data with
          | true => rw [hba, if_pos rfl] at h1; exact absurd h1 (by simp)
          | false =>
            rw [hba, if_neg (by simp)] at h1
            obtain rfl := str_eq_of_not_lt hab hba
            cases hac : strLTb a.data c.data with
            | true => rfl
            | false =>
              rw [hac, if_neg (by simp)] at h2
              cases hca : strLTb c.data a.data with
              | true => rw [hca, if_pos rfl] at h2; exact absurd h2 (by simp)
              | false =>
                rw [hca, if_neg (by simp)] at h2
                rw [if_neg (by simp), if_neg (by simp)]
                exact ih h1 h2

instance : IsTotal Path pLE := ⟨pathLEb_total⟩

instance : IsTrans Path pLE := ⟨fun _ _ _ => pathLEb_trans⟩

lemma pathLEb_of_pre {p q : Path} (h : p <+: q) : pathLEb p q = true := by
  obtain ⟨t, rfl⟩ := h
  induction p with
  | nil => rfl
  | cons a as ih => simp [pathLEb, strLTb_irrefl, ih]

lemma pathLEb_ext_false {p q : Path} (h : p <+: q) (hne : q ≠ p) : pathLEb q p = false := by
  obtain ⟨t, rfl⟩ := h
  induction p with
  | nil =>
    cases t with
    | nil => exact absurd rfl hne
    | cons c cs => rfl
  | cons a as ih =>
    have hne' : as ++ t ≠ as := by
      intro hcontra
      exact hne (by simp [hcontra])
    simp [pathLEb, strLTb_irrefl, ih hne']

lemma pre_comparable {p q r : Path} (h1 : p <+: r) (h2 : q <+: r) : p <+: q ∨ q <+: p := by
  rcases le_total p.length q.length with h | h
  · exact Or.inl (List.prefix_of_prefix_length_le h1 h2 h)
  · exact Or.inr (List.prefix_of_prefix_length_le h2 h1 h)

lemma mem_sortPaths {p : Path} {l : List Path} : p ∈ sortPaths l ↔ p ∈ l :=
  (List.perm_insertionSort pLE l).mem_iff

lemma nodup_sortPaths {l : List Path} (h : l.Nodup) : (sortPaths l).Nodup :=
  ((List.perm_insertionSort pLE l).nodup_iff).mpr h

lemma sorted_sortPaths (l : List Path) : List.Pairwise pLE (sortPaths l) :=
  List.sorted_insertionSort pLE l

/-- In the reversed sorted order, a directory is never followed by one of its
strict descendants: every descendant is processed earlier. -/
lemma rev_sorted_no_ext (l : List Path) :
    List.Pairwise (fun a b => ¬ Below a b) ((sortPaths l).reverse) := by
  rw [List.pairwise_reverse]
  refine (sorted_sortPaths l).imp ?_
  intro a b hab hbelow
  have := pathLEb_ext_false hbelow.1 hbelow.2
  rw [pLE] at hab
  rw [hab] at this
  exact Bool.true_eq_false.mp this

lemma mem_strictPrefixes {q p : Path} : q ∈ strictPrefixes p ↔ Below q p := by
  constructor
  · intro h
    rw [strictPrefixes, List.mem_map] at h
    obtain ⟨k, hk, rfl⟩ := h
    rw [List.mem_range] at hk
    refine ⟨List.take_prefix k p, ?_⟩
    intro hcontra
    have := congrArg List.length hcontra
    simp [List.length_take] at this
    omega
  · rintro ⟨hpre, hne⟩
    rw [strictPrefixes, List.mem_map]
    refine ⟨q.length, ?_, (List.prefix_iff_eq_take.mp hpre).symm⟩
    rw [List.mem_range]
    rcases lt_or_eq_of_le (List.IsPrefix.length_le hpre) with h | h
    · exact h
    · exfalso
      apply hne
      rw [List.prefix_iff_eq_take.mp hpre, h, List.take_length]

/-! ## Filesystem lemmas -/

lemma lookup_filter_ne {files : List (Path × Bytes)} {p q : Path} (h : q ≠ p) :
    (files.filter (fun e => !(e.1 == p))).lookup q = files.lookup q := by
  induction files with
  | nil => rfl
  | cons e es ih =>
    obtain ⟨k, v⟩ := e
    by_cases hkp : k = p
    · subst hkp
      have hq : (q == k) = false := beq_eq_false_iff_ne.mpr h
      simp [List.filter_cons, List.lookup, hq, ih]
    · have hk : (k == p) = false := beq_eq_false_iff_ne.mpr hkp
      cases hqk : q == k with
      | true => simp [List.filter_cons, List.lookup, hk, hqk]
      | false => simp [List.filter_cons, List.lookup, hk, hqk, ih]

lemma lookup_filter_self {files : List (Path × Bytes)} {p : Path} :
    (files.filter (fun e => !(e.1 == p))).lookup p = none := by
  induction files with
  | nil => rfl
  | cons e es ih =>
    obtain ⟨k, v⟩ := e
    by_cases hkp : k = p
    · subst hkp
      simp [List.filter_cons, ih]
    · have hk : (k == p) = false := beq_eq_false_iff_ne.mpr hkp
      have hpk : (p == k) = false := beq_eq_false_iff_ne.mpr (Ne.symm hkp)
      simp [List.filter_cons, List.lookup, hk, hpk, ih]

lemma read_write_self (fs : FS) (p : Path) (c : Bytes) :
    (fs.write_bytes p c).read_bytes p = some c := by
  simp [FS.write_bytes, FS.read_bytes, List.lookup]

lemma read_write_ne (fs : FS) {p q : Path} (c : Bytes) (h : q ≠ p) :
    (fs.write_bytes p c).read_bytes q = fs.read_bytes q := by
  have hqp : (q == p) = false := by
    rw [Bool.eq_false_iff]; intro hc; exact h (beq_iff_eq.mp hc)
  simp only [FS.write_bytes, FS.read_bytes, List.lookup, hqp]
  exact lookup_filter_ne h

lemma read_unlink_self (fs : FS) (p : Path) : (fs.unlink p).read_bytes p = none := by
  simp only [FS.unlink, FS.read_bytes]
  exact lookup_filter_self

lemma read_unlink_ne (fs : FS) {p q : Path} (h : q ≠ p) :
    (fs.unlink p).read_bytes q = fs.read_bytes q := by
  simp only [FS.unlink, FS.read_bytes]
  exact lookup_filter_ne h

lemma read_rmdir (fs : FS) (p q : Path) : (fs.rmdir p).read_bytes q = fs.read_bytes q := rfl

lemma dirs_unlink (fs : FS) (p : Path) : (fs.unlink p).dirs = fs.dirs := rfl

lemma files_rmdir (fs : FS) (p : Path) : (fs.rmdir p).files = fs.files := rfl

lemma mem_dirs_rmdir {fs : FS} {p d : Path} :
    d ∈ (fs.rmdir p).dirs ↔ d ∈ fs.dirs ∧ d ≠ p := by
  simp only [FS.rmdir, List.mem_filter, Bool.not_eq_true']
  constructor
  · rintro ⟨h1, h2⟩
    exact ⟨h1, fun hc => by simp [hc] at h2⟩
  · rintro ⟨h1, h2⟩
    refine ⟨h1, ?_⟩
    rw [Bool.eq_false_iff]
    intro hc
    exact h2 (beq_iff_eq.mp hc)

lemma mem_foldl_insert {l : List Path} {ds : List Path} {d : Path} :
    d ∈ l.foldl (fun ds x => if ds.contains x then ds else ds ++ [x]) ds ↔ d ∈ ds ∨ d ∈ l := by
  induction l generalizing ds with
  | nil => simp
  | cons x xs ih =>
    simp only [List.foldl_cons]
    by_cases hx : ds.contains x
    · rw [if_pos hx, ih]
      constructor
      · rintro (h | h)
        · exact Or.inl h
        · exact Or.inr (List.mem_cons_of_mem _ h)
      · rintro (h | h)
        · exact Or.inl h
        · rcases List.mem_cons.mp h with rfl | h
          · exact Or.inl (contains_iff.mp hx)
          · exact Or.inr h
    · rw [if_neg hx, ih]
      simp only [List.mem_append, List.mem_singleton, List.mem_cons]
      tauto

lemma mem_dirs_write {fs : FS} {p d : Path} {c : Bytes} :
    d ∈ (fs.write_bytes p c).dirs ↔ d ∈ fs.dirs ∨ Below d p := by
  show d ∈ (fs.mkdirParents p).dirs ↔ _
  simp only [FS.mkdirParents]
  rw [mem_foldl_insert, mem_strictPrefixes]

lemma isFile_iff {fs : FS} {p : Path} : fs.isFile p = true ↔ ∃ c, fs.read_bytes p = some c := by
  rw [FS.isFile, Option.isSome_iff_exists]

lemma isDir_iff {fs : FS} {p : Path} : fs.isDir p = true ↔ p ∈ fs.dirs := contains_iff

lemma mem_allPaths {fs : FS} {p : Path} :
    p ∈ fs.allPaths ↔ fs.isFile p = true ∨ fs.isDir p = true := by
  rw [FS.allPaths, List.mem_append, isDir_iff]
  constructor
  · rintro (h | h)
    · left
      rw [List.mem_map] at h
      obtain ⟨⟨k, v⟩, hmem, rfl⟩ := h
      rw [FS.isFile]
      cases hl : fs.read_bytes k with
      | some c => rfl
      | none =>
        rw [FS.read_bytes, List.lookup_eq_none_iff] at hl
        have := hl _ hmem
        simp at this
    · exact Or.inr h
  · rintro (h | h)
    · left
      obtain ⟨c, hc⟩ := isFile_iff.mp h
      rw [FS.read_bytes] at hc
      rw [List.lookup_eq_some_iff] at hc
      obtain ⟨l1, l2, heq, -⟩ := hc
      rw [List.mem_map, heq]
      exact ⟨(p, c), by simp, rfl⟩
    · exact Or.inr h

lemma mem_rglob {fs : FS} {dest p : Path} :
    p ∈ fs.rglob dest ↔ p ∈ fs.allPaths ∧ Below dest p := by
  rw [FS.rglob, List.mem_dedup, List.mem_filter]
  constructor
  · rintro ⟨h1, h2⟩
    rw [Bool.and_eq_true] at h2
    refine ⟨h1, isPrefixOf_eq_true.mp h2.1, ?_⟩
    intro hc
    have := h2.2
    simp [hc] at this
  · rintro ⟨h1, h2, h3⟩
    refine ⟨h1, ?_⟩
    rw [Bool.and_eq_true]
    refine ⟨isPrefixOf_eq_true.mpr h2, ?_⟩
    simp [h3]

lemma nodup_rglob (fs : FS) (dest : Path) : (fs.rglob dest).Nodup := List.nodup_dedup _

lemma hasChild_iff {fs : FS} {d : Path} :
    fs.hasChild d = true ↔ ∃ q ∈ fs.allPaths, q.length = d.length + 1 ∧ d <+: q := by
  rw [FS.hasChild, List.any_eq_true]
  constructor
  · rintro ⟨q, hq, hcond⟩
    rw [Bool.and_eq_true] at hcond
    exact ⟨q, hq, by simpa using hcond.1, isPrefixOf_eq_true.mp hcond.2⟩
  · rintro ⟨q, hq, h1, h2⟩
    refine ⟨q, hq, ?_⟩
    rw [Bool.and_eq_true]
    exact ⟨by simpa using h1, isPrefixOf_eq_true.mpr h2⟩

lemma closedB_iff {fs : FS} :
    fs.ClosedB = true ↔ ∀ p ∈ fs.allPaths, ∀ q, Below q p → q ∈ fs.dirs := by
  rw [FS.ClosedB, List.all_eq_true]
  constructor
  · intro h p hp q hq
    have := h p hp
    rw [List.all_eq_true] at this
    exact contains_iff.mp (this q (mem_strictPrefixes.mpr hq))
  · intro h p hp
    rw [List.all_eq_true]
    intro q hq
    exact contains_iff.mpr (h p hp q (mem_strictPrefixes.mp hq))

lemma below_length {q p : Path} (h : Below q p) : q.length < p.length := by
  rcases lt_or_eq_of_le (List.IsPrefix.length_le h.1) with hl | hl
  · exact hl
  · exfalso
    apply h.2.symm
    rw [List.prefix_iff_eq_take.mp h.1, hl, List.take_length]

lemma below_of_pre {d q p : Path} (h1 : d <+: q) (h2 : Below q p) : Below d p := by
  refine ⟨h1.trans h2.1, ?_⟩
  intro hc
  subst hc
  exact absurd (List.IsPrefix.length_le h1) (not_le.mpr (below_length h2))

lemma below_below {d q p : Path} (h1 : Below d q) (h2 : Below q p) : Below d p :=
  below_of_pre h1.1 h2

lemma below_append {dest : Path} (rest : Path) (h : rest ≠ []) : Below dest (dest ++ rest) := by
  refine ⟨⟨rest, rfl⟩, ?_⟩
  intro hc
  have := congrArg List.length hc
  simp at this
  exact h this

/-! ## `sync_file` lemmas -/

lemma sync_file_none (dest : Path) (st : St) :
    sync_file none dest st = .ok (false, bump st) := rfl

lemma sync_file_eq {st : St} {dest : Path} {c : Bytes}
    (h : st.fs.read_bytes dest = some c) :
    sync_file (some c) dest st = .ok (false, bump st) := by
  have hfile : st.fs.isFile dest = true := isFile_iff.mpr ⟨c, h⟩
  have hex : st.fs.pathExists dest = true := by
    rw [FS.pathExists, hfile, Bool.true_or]
  simp only [sync_file, download_file]
  have hfs : (bump st).fs = st.fs := rfl
  rw [hfs, if_pos hex, h]
  simp

lemma sync_file_diff {st : St} {dest : Path} {c ex : Bytes}
    (h : st.fs.read_bytes dest = some ex) (hne : ex ≠ c) :
    sync_file (some c) dest st =
      .ok (true, { bump st with fs := st.fs.write_bytes dest c }) := by
  have hfile : st.fs.isFile dest = true := isFile_iff.mpr ⟨ex, h⟩
  have hex : st.fs.pathExists dest = true := by
    rw [FS.pathExists, hfile, Bool.true_or]
  simp only [sync_file, download_file]
  have hfs : (bump st).fs = st.fs := rfl
  rw [hfs, if_pos hex, h]
  simp [beq_eq_false_iff_ne.mpr hne]

lemma sync_file_new {st : St} {dest : Path} {c : Bytes}
    (h : st.fs.read_bytes dest = none) (hd : st.fs.isDir dest = false) :
    sync_file (some c) dest st =
      .ok (true, { bump st with fs := st.fs.write_bytes dest c }) := by
  have hfile : st.fs.isFile dest = false := by
    rw [FS.isFile, h]; rfl
  have hex : st.fs.pathExists dest = false := by
    rw [FS.pathExists, hfile, hd]; rfl
  simp only [sync_file, download_file]
  have hfs : (bump st).fs = st.fs := rfl
  rw [hfs, if_neg (by rw [hex]; exact Bool.false_ne_true)]

lemma sync_file_isdir {st : St} {dest : Path} {c : Bytes}
    (h : st.fs.read_bytes dest = none) (hd : st.fs.isDir dest = true) :
    sync_file (some c) dest st = .error .isADirectory := by
  have hex : st.fs.pathExists dest = true := by
    rw [FS.pathExists, hd, Bool.or_true]
  simp only [sync_file, download_file]
  have hfs : (bump st).fs = st.fs := rfl
  rw [hfs, if_pos hex, h]

/-- Inversion: what a successful `sync_file` call did to the world. -/
lemma sync_file_ok_inv {dl : Option Bytes} {dest : Path} {st st' : St} {upd : Bool}
    (h : sync_file dl dest st = .ok (upd, st')) :
    st'.net = st.net + 1 ∧
    ((dl = none ∧ upd = false ∧ st'.fs = st.fs) ∨
     (∃ c, dl = some c ∧
       ((upd = false ∧ st.fs.read_bytes dest = some c ∧ st'.fs = st.fs) ∨
        (upd = true ∧ st.fs.read_bytes dest ≠ some c ∧
          st'.fs = st.fs.write_bytes dest c)))) := by
  cases dl with
  | none =>
    rw [sync_file_none] at h
    obtain ⟨h1, h2⟩ := Prod.mk.injEq .. ▸ Except.ok.inj h
    subst h1
    rw [← h2]
    exact ⟨rfl, Or.inl ⟨rfl, rfl, rfl⟩⟩
  | some c =>
    cases hr : st.fs.read_bytes dest with
    | some ex =>
      by_cases hec : ex = c
      · subst hec
        rw [sync_file_eq hr] at h
        obtain ⟨h1, h2⟩ := Prod.mk.injEq .. ▸ Except.ok.inj h
        subst h1
        rw [← h2]
        exact ⟨rfl, Or.inr ⟨ex, rfl, Or.inl ⟨rfl, rfl, rfl⟩⟩⟩
      · rw [sync_file_diff hr hec] at h
        obtain ⟨h1, h2⟩ := Prod.mk.injEq .. ▸ Except.ok.inj h
        subst h1
        rw [← h2]
        refine ⟨rfl, Or.inr ⟨c, rfl, Or.inr ⟨rfl, ?_, rfl⟩⟩⟩
        intro hcontra
        exact hec (Option.some.inj hcontra)
    | none =>
      cases hd : st.fs.isDir dest with
      | true => rw [sync_file_isdir hr hd] at h; exact absurd h (by simp)
      | false =>
        rw [sync_file_new hr hd] at h
        obtain ⟨h1, h2⟩ := Prod.mk.injEq .. ▸ Except.ok.inj h
        subst h1
        rw [← h2]
        refine ⟨rfl, Or.inr ⟨c, rfl, Or.inr ⟨rfl, ?_, rfl⟩⟩⟩
        exact fun hcontra => Option.noConfusion hcontra

/-- A successful `sync_file` never errors when the destination is not an
existing directory. -/
lemma sync_file_total (dl : Option Bytes) {dest : Path} {st : St}
    (hd : st.fs.isDir dest = false) :
    ∃ upd st', sync_file dl dest st = .ok (upd, st') := by
  cases dl with
  | none => exact ⟨false, bump st, sync_file_none dest st⟩
  | some c =>
    cases hr : st.fs.read_bytes dest with
    | some ex =>
      by_cases hec : ex = c
      · subst hec
        exact ⟨false, bump st, sync_file_eq hr⟩
      · exact ⟨true, _, sync_file_diff hr hec⟩
    | none => exact ⟨true, _, sync_file_new hr hd⟩

/-! ## Closure preservation -/

lemma allPaths_write_sub {fs : FS} {p q : Path} {c : Bytes}
    (h : q ∈ (fs.write_bytes p c).allPaths) :
    q = p ∨ q ∈ fs.allPaths ∨ Below q p := by
  rcases mem_allPaths.mp h with hf | hd
  · obtain ⟨b, hb⟩ := isFile_iff.mp hf
    by_cases hqp : q = p
    · exact Or.inl hqp
    · rw [read_write_ne fs c hqp] at hb
      exact Or.inr (Or.inl (mem_allPaths.mpr (Or.inl (isFile_iff.mpr ⟨b, hb⟩))))
  · rcases mem_dirs_write.mp (isDir_iff.mp hd) with h' | h'
    · exact Or.inr (Or.inl (mem_allPaths.mpr (Or.inr (isDir_iff.mpr h'))))
    · exact Or.inr (Or.inr h')

lemma closed_write {fs : FS} {p : Path} {c : Bytes} (h : fs.ClosedB = true) :
    (fs.write_bytes p c).ClosedB = true := by
  rw [closedB_iff] at h ⊢
  intro q hq r hr
  have hdirs : ∀ d, d ∈ fs.dirs ∨ Below d p → d ∈ (fs.write_bytes p c).dirs :=
    fun d hd => mem_dirs_write.mpr hd
  rcases allPaths_write_sub hq with rfl | hq' | hq'
  · exact hdirs r (Or.inr hr)
  · exact hdirs r (Or.inl (h q hq' r hr))
  · exact hdirs r (Or.inr (below_below hr hq'))

lemma allPaths_unlink_sub {fs : FS} {p q : Path} (h : q ∈ (fs.unlink p).allPaths) :
    q ∈ fs.allPaths := by
  rcases mem_allPaths.mp h with hf | hd
  · obtain ⟨b, hb⟩ := isFile_iff.mp hf
    by_cases hqp : q = p
    · subst hqp
      rw [read_unlink_self] at hb
      exact absurd hb (by simp)
    · rw [read_unlink_ne fs hqp] at hb
      exact mem_allPaths.mpr (Or.inl (isFile_iff.mpr ⟨b, hb⟩))
  · exact mem_allPaths.mpr (Or.inr hd)

lemma closed_unlink {fs : FS} {p : Path} (h : fs.ClosedB = true) :
    (fs.unlink p).ClosedB = true := by
  rw [closedB_iff] at h ⊢
  intro q hq r hr
  exact h q (allPaths_unlink_sub hq) r hr

/-- Filesystem effects of a successful `sync_file` call. -/
lemma sync_file_fs {dl : Option Bytes} {dest : Path} {st st' : St} {upd : Bool}
    (h : sync_file dl dest st = .ok (upd, st')) :
    (∀ p, p ≠ dest → st'.fs.read_bytes p = st.fs.read_bytes p) ∧
    (dl = none → st'.fs = st.fs) ∧
    (∀ c, dl = some c → st'.fs.read_bytes dest = some c) ∧
    (∀ p, st.fs.isFile p = true → st'.fs.isFile p = true) ∧
    (∀ d, d ∈ st'.fs.dirs → d ∈ st.fs.dirs ∨ Below d dest) ∧
    (st.fs.ClosedB = true → st'.fs.ClosedB = true) := by
  obtain ⟨-, hcases⟩ := sync_file_ok_inv h
  rcases hcases with ⟨hdl, -, hfs⟩ | ⟨c, hdl, hcase⟩
  · subst hdl
    rw [hfs]
    exact ⟨fun _ _ => rfl, fun _ => rfl, fun c hc => Option.noConfusion hc,
      fun _ h => h, fun d hd => Or.inl hd, fun h => h⟩
  · subst hdl
    rcases hcase with ⟨-, hread, hfs⟩ | ⟨-, hread, hfs⟩
    · rw [hfs]
      exact ⟨fun _ _ => rfl, fun hc => Option.noConfusion hc,
        fun c' hc' => by rw [← Option.some.inj hc']; exact hread,
        fun _ h => h, fun d hd => Or.inl hd, fun h => h⟩
    · rw [hfs]
      refine ⟨fun p hp => read_write_ne st.fs c hp,
        fun hc => Option.noConfusion hc,
        fun c' hc' => by rw [← Option.some.inj hc']; exact read_write_self st.fs dest c,
        ?_, fun d hd => mem_dirs_write.mp (isDir_iff.mp (contains_iff.mpr hd)), closed_write⟩
      intro p hp
      by_cases hpd : p = dest
      · subst hpd
        exact isFile_iff.mpr ⟨c, read_write_self st.fs p c⟩
      · obtain ⟨b, hb⟩ := isFile_iff.mp hp
        exact isFile_iff.mpr ⟨b, by rw [read_write_ne st.fs c hpd]; exact hb⟩

/-! ## Targets and downloads -/

lemma mem_listingTargets {p : Path} {lo : ListingOutcome} {dest : Path} :
    p ∈ listingTargets lo dest ↔ ∃ d, (p, d) ∈ listingDownloads lo dest := by
  rw [listingTargets, List.mem_map]
  constructor
  · rintro ⟨⟨q, d⟩, hm, rfl⟩
    exact ⟨d, hm⟩
  · rintro ⟨d, hm⟩
    exact ⟨(p, d), hm, rfl⟩

lemma mem_entriesTargets {p : Path} {es : EntryList} {dest : Path} :
    p ∈ entriesTargets es dest ↔ ∃ d, (p, d) ∈ entriesDownloads es dest := by
  rw [entriesTargets, List.mem_map]
  constructor
  · rintro ⟨⟨q, d⟩, hm, rfl⟩
    exact ⟨d, hm⟩
  · rintro ⟨d, hm⟩
    exact ⟨(p, d), hm, rfl⟩

/-- Every download target lies strictly below the directory being synced. -/
lemma downloads_below :
    (∀ (lo : ListingOutcome) (dest : Path), ∀ pd ∈ listingDownloads lo dest, Below dest pd.1) ∧
    (∀ (es : EntryList) (dest : Path), ∀ pd ∈ entriesDownloads es dest, Below dest pd.1) := by
  refine listingDownloads.mutual_induct
    (fun lo dest => ∀ pd ∈ listingDownloads lo dest, Below dest pd.1)
    (fun es dest => ∀ pd ∈ entriesDownloads es dest, Below dest pd.1)
    ?_ ?_ ?_ ?_ ?_ ?_
  · intro es dest ih
    exact ih
  · intro lo dest h
    intro pd hpd
    rw [listingDownloads] at hpd
    · simp at hpd
    · exact h
  · intro dest pd hpd
    simp [entriesDownloads] at hpd
  · intro nm dl rest dest ih pd hpd
    rw [entriesDownloads, List.mem_cons] at hpd
    rcases hpd with rfl | hpd
    · exact below_append [nm] (by simp)
    · exact ih pd hpd
  · intro nm lo rest dest ih1 ih2 pd hpd
    rw [entriesDownloads, List.mem_append] at hpd
    rcases hpd with hpd | hpd
    · exact below_of_pre ⟨[nm], rfl⟩ (ih1 pd hpd)
    · exact ih2 pd hpd
  · intro nm rest dest ih pd hpd
    rw [entriesDownloads] at hpd
    exact ih pd hpd

lemma listingTargets_below {lo : ListingOutcome} {dest p : Path}
    (h : p ∈ listingTargets lo dest) : Below dest p := by
  obtain ⟨d, hd⟩ := mem_listingTargets.mp h
  exact downloads_below.1 lo dest (p, d) hd

lemma entriesTargets_cons_file (nm : String) (dl : Option Bytes) (rest : EntryList)
    (dest : Path) :
    entriesTargets (.cons nm (.file dl) rest) dest =
      (dest ++ [nm]) :: entriesTargets rest dest := rfl

lemma entriesTargets_cons_dir (nm : String) (lo : ListingOutcome) (rest : EntryList)
    (dest : Path) :
    entriesTargets (.cons nm (.dir lo) rest) dest =
      listingTargets lo (dest ++ [nm]) ++ entriesTargets rest dest := by
  rw [entriesTargets, entriesDownloads, List.map_append]
  rfl

/-- The facts established by one successful sync pass over a download plan
`dls` with target list `tgts`, started in state `st` and ending in `o`. -/
def SyncFacts (dls : List (Path × Option Bytes)) (tgts : List Path) (st : St)
    (o : DirOut) : Prop :=
  o.synced = tgts ∧
  (∀ p, (∀ c, (p, some c) ∉ dls) → o.st.fs.read_bytes p = st.fs.read_bytes p) ∧
  (∀ p, st.fs.isFile p = true → o.st.fs.isFile p = true) ∧
  (∀ p c, (p, some c) ∈ dls → o.st.fs.isFile p = true) ∧
  (∀ d, d ∈ o.st.fs.dirs → d ∈ st.fs.dirs ∨ ∃ q ∈ tgts, Below d q) ∧
  (st.fs.ClosedB = true → o.st.fs.ClosedB = true) ∧
  (tgts.Nodup → ∀ p c, (p, some c) ∈ dls → o.st.fs.read_bytes p = some c)

lemma syncFacts_empty {st stv : St} (hfs : stv.fs = st.fs) :
    SyncFacts [] [] st ⟨[], [], stv⟩ := by
  refine ⟨rfl, fun p _ => by rw [hfs], fun p h => by rw [show (⟨[], [], stv⟩ : DirOut).st = stv from rfl, hfs]; exact h,
    fun p c h => absurd h (List.not_mem_nil _), fun d hd => Or.inl (by rw [← hfs]; exact hd),
    fun h => by rw [show (⟨[], [], stv⟩ : DirOut).st = stv from rfl, hfs]; exact h,
    fun _ p c h => absurd h (List.not_mem_nil _)⟩

/-- Master inversion for `sync_directory`/`syncEntries`: everything a
successful pass guarantees about its output. -/
theorem sync_ok_facts :
    (∀ (lo : ListingOutcome) (dest : Path) (st : St), ∀ o,
       sync_directory lo dest st = .ok o →
       SyncFacts (listingDownloads lo dest) (listingTargets lo dest) st o) ∧
    (∀ (es : EntryList) (dest : Path) (st : St), ∀ o,
       syncEntries es dest st = .ok o →
       SyncFacts (entriesDownloads es dest) (entriesTargets es dest) st o) := by
  refine sync_directory.mutual_induct
    (fun lo dest st => ∀ o, sync_directory lo dest st = .ok o →
       SyncFacts (listingDownloads lo dest) (listingTargets lo dest) st o)
    (fun es dest st => ∀ o, syncEntries es dest st = .ok o →
       SyncFacts (entriesDownloads es dest) (entriesTargets es dest) st o)
    ?_ ?_ ?_ ?_ ?_ ?_ ?_ ?_ ?_ ?_ ?_ ?_
  · -- badJson
    intro dest st o ho
    simp [sync_directory] at ho
  · -- httpError
    intro dest st o ho
    simp only [sync_directory] at ho
    obtain rfl := Except.ok.inj ho
    exact syncFacts_empty rfl
  · -- urlError
    intro dest st o ho
    simp only [sync_directory] at ho
    obtain rfl := Except.ok.inj ho
    exact syncFacts_empty rfl
  · -- entries
    intro dest st es ih o ho
    simp only [sync_directory] at ho
    exact ih o ho
  · -- nil
    intro dest st o ho
    simp only [syncEntries] at ho
    obtain rfl := Except.ok.inj ho
    exact syncFacts_empty rfl
  · -- cons file, sync_file raises
    intro dest st nm rest itemDest dl e h1 o ho
    simp only [syncEntries, h1] at ho
    exact Except.noConfusion ho
  · -- cons file, ok, rest raises
    intro dest st nm rest itemDest dl upd st1 h1 e h2 ih o ho
    simp only [syncEntries, h1, h2] at ho
    exact Except.noConfusion ho
  · -- cons file, ok, rest ok
    intro dest st nm rest itemDest dl upd st1 h1 o' h2 ih o ho
    simp only [syncEntries, h1, h2] at ho
    obtain rfl := Except.ok.inj ho
    obtain ⟨f1, f2, f3, f4, f5, f6⟩ := sync_file_fs h1
    obtain ⟨g1, g2, g3, g4, g5, g6, g7⟩ := ih o' h2
    have hne_of_not : ∀ (p : Path) (c : Bytes), dl = some c →
        (∀ c', (p, some c') ∉ (itemDest, dl) :: entriesDownloads rest dest) → p ≠ itemDest := by
      intro p c hdl hnot hpd
      subst hpd
      exact hnot c (by rw [hdl]; exact List.mem_cons_self _ _)
    refine ⟨?_, ?_, ?_, ?_, ?_, ?_, ?_⟩
    · rw [entriesTargets_cons_file]
      show itemDest :: o'.synced = itemDest :: entriesTargets rest dest
      rw [g1]
    · intro p hp
      have hrest : ∀ c, (p, some c) ∉ entriesDownloads rest dest :=
        fun c hc => hp c (List.mem_cons_of_mem _ hc)
      show o'.st.fs.read_bytes p = st.fs.read_bytes p
      rw [g2 p hrest]
      cases hdl : dl with
      | none => rw [f2 hdl]
      | some c => exact f1 p (hne_of_not p c hdl hp)
    · intro p hp
      exact g3 p (f4 p hp)
    · intro p c hmem
      rcases List.mem_cons.mp hmem with heq | hmem'
      · obtain ⟨rfl, hdl⟩ := Prod.mk.injEq .. ▸ heq
        exact g3 _ (isFile_iff.mpr ⟨c, f3 c hdl.symm⟩)
      · exact g4 p c hmem'
    · intro d hd
      rcases g5 d hd with hd' | ⟨q, hq, hbel⟩
      · rcases f5 d hd' with hd'' | hbel
        · exact Or.inl hd''
        · exact Or.inr ⟨itemDest, by rw [entriesTargets_cons_file]; exact List.mem_cons_self _ _, hbel⟩
      · exact Or.inr ⟨q, by rw [entriesTargets_cons_file]; exact List.mem_cons_of_mem _ hq, hbel⟩
    · intro h
      exact g6 (f6 h)
    · intro hnd p c hmem
      rw [entriesTargets_cons_file] at hnd
      obtain ⟨hnotin, hnd'⟩ := List.nodup_cons.mp hnd
      rcases List.mem_cons.mp hmem with heq | hmem'
      · obtain ⟨rfl, hdl⟩ := Prod.mk.injEq .. ▸ heq
        have hstep : st1.fs.read_bytes itemDest = some c := f3 c hdl.symm
        have hrest : ∀ c', (itemDest, some c') ∉ entriesDownloads rest dest := by
          intro c' hc'
          exact hnotin (mem_entriesTargets.mpr ⟨some c', hc'⟩)
        show o'.st.fs.read_bytes itemDest = some c
        rw [g2 _ hrest, hstep]
      · exact g7 hnd' p c hmem'
  · -- cons dir, sync_directory raises
    intro dest st nm rest itemDest lo e h1 ih1 o ho
    simp only [syncEntries, h1] at ho
    exact Except.noConfusion ho
  · -- cons dir, ok, rest raises
    intro dest st nm rest itemDest lo o1 h1 e h2 ih1 ih2 o ho
    simp only [syncEntries, h1, h2] at ho
    exact Except.noConfusion ho
  · -- cons dir, ok, rest ok
    intro dest st nm rest itemDest lo o1 h1 o2 h2 ih1 ih2 o ho
    simp only [syncEntries, h1, h2] at ho
    obtain rfl := Except.ok.inj ho
    obtain ⟨g1, g2, g3, g4, g5, g6, g7⟩ := ih1 o1 h1
    obtain ⟨k1, k2, k3, k4, k5, k6, k7⟩ := ih2 o2 h2
    have hdls : entriesDownloads (.cons nm (.dir lo) rest) dest =
        listingDownloads lo itemDest ++ entriesDownloads rest dest := rfl
    refine ⟨?_, ?_, ?_, ?_, ?_, ?_, ?_⟩
    · rw [entriesTargets_cons_dir]
      show o1.synced ++ o2.synced = _
      rw [g1, k1]
    · intro p hp
      rw [hdls] at hp
      have hsub : ∀ c, (p, some c) ∉ listingDownloads lo itemDest :=
        fun c hc => hp c (List.mem_append_left _ hc)
      have hrest : ∀ c, (p, some c) ∉ entriesDownloads rest dest :=
        fun c hc => hp c (List.mem_append_right _ hc)
      show o2.st.fs.read_bytes p = st.fs.read_bytes p
      rw [k2 p hrest, g2 p hsub]
    · intro p hp
      exact k3 p (g3 p hp)
    · intro p c hmem
      rw [hdls] at hmem
      rcases List.mem_append.mp hmem with hmem' | hmem'
      · exact k3 p (g4 p c hmem')
      · exact k4 p c hmem'
    · intro d hd
      rw [entriesTargets_cons_dir]
      rcases k5 d hd with hd' | ⟨q, hq, hbel⟩
      · rcases g5 d hd' with hd'' | ⟨q, hq, hbel⟩
        · exact Or.inl hd''
        · exact Or.inr ⟨q, List.mem_append_left _ hq, hbel⟩
      · exact Or.inr ⟨q, List.mem_append_right _ hq, hbel⟩
    · intro h
      exact k6 (g6 h)
    · intro hnd p c hmem
      rw [entriesTargets_cons_dir] at hnd
      obtain ⟨hnd1, hnd2, hdisj⟩ := List.nodup_append.mp hnd
      rw [hdls] at hmem
      rcases List.mem_append.mp hmem with hmem' | hmem'
      · have hval : o1.st.fs.read_bytes p = some c := g7 hnd1 p c hmem'
        have hrest : ∀ c', (p, some c') ∉ entriesDownloads rest dest := by
          intro c' hc'
          exact hdisj (mem_listingTargets.mpr ⟨some c, hmem'⟩)
            (mem_entriesTargets.mpr ⟨some c', hc'⟩)
        show o2.st.fs.read_bytes p = some c
        rw [k2 p hrest, hval]
      · exact k7 hnd2 p c hmem'
  · -- cons other
    intro dest st nm rest ih o ho
    simp only [syncEntries] at ho
    exact ih o ho

/-- `sync_file` raises only `IsADirectoryError`, and only when the
destination is an existing directory without a file at the same path. -/
lemma sync_file_error_inv {dl : Option Bytes} {dest : Path} {st : St} {e : Exn}
    (h : sync_file dl dest st = .error e) :
    e = .isADirectory ∧ st.fs.isDir dest = true ∧ ∃ c, dl = some c := by
  cases dl with
  | none => rw [sync_file_none] at h; exact Except.noConfusion h
  | some c =>
    cases hr : st.fs.read_bytes dest with
    | some ex =>
      by_cases hec : ex = c
      · subst hec; rw [sync_file_eq hr] at h; exact Except.noConfusion h
      · rw [sync_file_diff hr hec] at h; exact Except.noConfusion h
    | none =>
      cases hd : st.fs.isDir dest with
      | false => rw [sync_file_new hr hd] at h; exact Except.noConfusion h
      | true =>
        rw [sync_file_isdir hr hd] at h
        exact ⟨(Except.error.inj h).symm, rfl, c, rfl⟩

/-- The directory-membership invariant threaded through a run: every
existing directory was there initially (`D`) or sits strictly below some
write target in `T`. -/
def DirsInv (D T : List Path) (fs : FS) : Prop :=
  ∀ d ∈ fs.dirs, d ∈ D ∨ ∃ q ∈ T, Below d q

/-- The separation hypotheses under which no `sync_file` call can find a
directory at its destination: no target is an original directory, and no
target lies strictly below another target. -/
def TargetsOk (D T : List Path) : Prop :=
  (∀ q ∈ T, q ∉ D) ∧ (∀ q ∈ T, ∀ r ∈ T, ¬ Below q r)

lemma no_dir_at_target {D T : List Path} {fs : FS} {p : Path}
    (hT : TargetsOk D T) (hinv : DirsInv D T fs) (hp : p ∈ T) :
    fs.isDir p = false := by
  cases hd : fs.isDir p with
  | false => rfl
  | true =>
    exfalso
    rcases hinv p (isDir_iff.mp hd) with hD | ⟨q, hq, hbel⟩
    · exact hT.1 p hp hD
    · exact hT.2 p hp q hq hbel

/-- Totality: when no reachable listing body is invalid JSON and the target
separation hypotheses hold, the sync pass raises no exception. -/
theorem sync_total :
    (∀ (lo : ListingOutcome) (dest : Path) (st : St) (D T : List Path),
       listingClean lo = true →
       (∀ q ∈ listingTargets lo dest, q ∈ T) →
       TargetsOk D T →
       DirsInv D T st.fs →
       ∃ o, sync_directory lo dest st = .ok o) ∧
    (∀ (es : EntryList) (dest : Path) (st : St) (D T : List Path),
       entriesClean es = true →
       (∀ q ∈ entriesTargets es dest, q ∈ T) →
       TargetsOk D T →
       DirsInv D T st.fs →
       ∃ o, syncEntries es dest st = .ok o) := by
  refine sync_directory.mutual_induct
    (fun lo dest st => ∀ (D T : List Path),
       listingClean lo = true →
       (∀ q ∈ listingTargets lo dest, q ∈ T) →
       TargetsOk D T →
       DirsInv D T st.fs →
       ∃ o, sync_directory lo dest st = .ok o)
    (fun es dest st => ∀ (D T : List Path),
       entriesClean es = true →
       (∀ q ∈ entriesTargets es dest, q ∈ T) →
       TargetsOk D T →
       DirsInv D T st.fs →
       ∃ o, syncEntries es dest st = .ok o)
    ?_ ?_ ?_ ?_ ?_ ?_ ?_ ?_ ?_ ?_ ?_ ?_
  · -- badJson: excluded by cleanliness
    intro dest st D T hclean
    exact absurd hclean (by simp [listingClean])
  · intro dest st D T _ _ _ _
    exact ⟨_, rfl⟩
  · intro dest st D T _ _ _ _
    exact ⟨_, rfl⟩
  · -- entries
    intro dest st es ih D T hclean htgt hT hinv
    simp only [sync_directory]
    exact ih D T (by simpa [listingClean] using hclean) htgt hT hinv
  · -- nil
    intro dest st D T _ _ _ _
    exact ⟨_, rfl⟩
  · -- cons file, sync_file raises: impossible under the hypotheses
    intro dest st nm rest itemDest dl e h1 D T hclean htgt hT hinv
    exfalso
    obtain ⟨-, hdir, -⟩ := sync_file_error_inv h1
    have hmem : itemDest ∈ T := by
      refine htgt itemDest ?_
      rw [entriesTargets_cons_file]
      exact List.mem_cons_self _ _
    rw [no_dir_at_target hT hinv hmem] at hdir
    exact Bool.noConfusion hdir
  · -- cons file ok, rest raises: impossible
    intro dest st nm rest itemDest dl upd st1 h1 e h2 ih D T hclean htgt hT hinv
    exfalso
    obtain ⟨-, -, -, -, f5, -⟩ := sync_file_fs h1
    have hinv1 : DirsInv D T st1.fs := by
      intro d hd
      rcases f5 d hd with hd' | hbel
      · exact hinv d hd'
      · refine Or.inr ⟨itemDest, ?_, hbel⟩
        refine htgt itemDest ?_
        rw [entriesTargets_cons_file]
        exact List.mem_cons_self _ _
    have htgt1 : ∀ q ∈ entriesTargets rest dest, q ∈ T := by
      intro q hq
      refine htgt q ?_
      rw [entriesTargets_cons_file]
      exact List.mem_cons_of_mem _ hq
    obtain ⟨o, hok⟩ := ih D T (by simpa [entriesClean] using hclean) htgt1 hT hinv1
    rw [h2] at hok
    exact Except.noConfusion hok
  · -- cons file ok, rest ok
    intro dest st nm rest itemDest dl upd st1 h1 o' h2 ih D T _ _ _ _
    exact ⟨⟨(if upd then [itemDest] else []) ++ o'.updated, itemDest :: o'.synced, o'.st⟩,
      by simp only [syncEntries, h1, h2]⟩
  · -- cons dir: sub-listing raises: impossible
    intro dest st nm rest itemDest lo e h1 ih1 D T hclean htgt hT hinv
    exfalso
    have hcl : listingClean lo = true := by
      simp only [entriesClean, Bool.and_eq_true] at hclean
      exact hclean.1
    have htgt1 : ∀ q ∈ listingTargets lo itemDest, q ∈ T := by
      intro q hq
      refine htgt q ?_
      rw [entriesTargets_cons_dir]
      exact List.mem_append_left _ hq
    obtain ⟨o, hok⟩ := ih1 D T hcl htgt1 hT hinv
    rw [h1] at hok
    exact Except.noConfusion hok
  · -- cons dir ok, rest raises: impossible
    intro dest st nm rest itemDest lo o1 h1 e h2 ih1 ih2 D T hclean htgt hT hinv
    exfalso
    simp only [entriesClean, Bool.and_eq_true] at hclean
    have hfacts := sync_ok_facts.1 lo itemDest st o1 h1
    obtain ⟨-, -, -, -, g5, -, -⟩ := hfacts
    have hinv1 : DirsInv D T o1.st.fs := by
      intro d hd
      rcases g5 d hd with hd' | ⟨q, hq, hbel⟩
      · exact hinv d hd'
      · refine Or.inr ⟨q, ?_, hbel⟩
        refine htgt q ?_
        rw [entriesTargets_cons_dir]
        exact List.mem_append_left _ hq
    have htgt1 : ∀ q ∈ entriesTargets rest dest, q ∈ T := by
      intro q hq
      refine htgt q ?_
      rw [entriesTargets_cons_dir]
      exact List.mem_append_right _ hq
    obtain ⟨o, hok⟩ := ih2 D T hclean.2 htgt1 hT hinv1
    rw [h2] at hok
    exact Except.noConfusion hok
  · -- cons dir ok, rest ok
    intro dest st nm rest itemDest lo o1 h1 o2 h2 ih1 ih2 D T _ _ _ _
    exact ⟨⟨o1.updated ++ o2.updated, o1.synced ++ o2.synced, o2.st⟩,
      by simp only [syncEntries, h1, h2]⟩
  · -- cons other
    intro dest st nm rest ih D T hclean htgt hT hinv
    simp only [syncEntries]
    exact ih D T (by simpa [entriesClean] using hclean) htgt hT hinv

/-- When every fetch succeeds and every target already holds the remote
bytes, the sync pass is a no-op on the filesystem: nothing updated, the
synced set is the full target list, and only the request counter moves. -/
theorem sync_noop :
    (∀ (lo : ListingOutcome) (dest : Path) (st : St),
       listingAllOk lo = true →
       (∀ p c, (p, some c) ∈ listingDownloads lo dest → st.fs.read_bytes p = some c) →
       ∃ n, sync_directory lo dest st = .ok ⟨[], listingTargets lo dest, ⟨st.fs, n⟩⟩) ∧
    (∀ (es : EntryList) (dest : Path) (st : St),
       entriesAllOk es = true →
       (∀ p c, (p, some c) ∈ entriesDownloads es dest → st.fs.read_bytes p = some c) →
       ∃ n, syncEntries es dest st = .ok ⟨[], entriesTargets es dest, ⟨st.fs, n⟩⟩) := by
  refine sync_directory.mutual_induct
    (fun lo dest st =>
       listingAllOk lo = true →
       (∀ p c, (p, some c) ∈ listingDownloads lo dest → st.fs.read_bytes p = some c) →
       ∃ n, sync_directory lo dest st = .ok ⟨[], listingTargets lo dest, ⟨st.fs, n⟩⟩)
    (fun es dest st =>
       entriesAllOk es = true →
       (∀ p c, (p, some c) ∈ entriesDownloads es dest → st.fs.read_bytes p = some c) →
       ∃ n, syncEntries es dest st = .ok ⟨[], entriesTargets es dest, ⟨st.fs, n⟩⟩)
    ?_ ?_ ?_ ?_ ?_ ?_ ?_ ?_ ?_ ?_ ?_ ?_
  · intro dest st hok
    exact absurd hok (by simp [listingAllOk])
  · intro dest st hok
    exact absurd hok (by simp [listingAllOk])
  · intro dest st hok
    exact absurd hok (by simp [listingAllOk])
  · intro dest st es ih hok hmirror
    simp only [sync_directory]
    exact ih (by simpa [listingAllOk] using hok) hmirror
  · intro dest st _ _
    exact ⟨st.net, rfl⟩
  · -- cons file: sync_file cannot raise, as the byte-equality branch fires
    intro dest st nm rest itemDest dl e h1 hok hmirror
    exfalso
    simp only [entriesAllOk, Bool.and_eq_true, Option.isSome_iff_exists] at hok
    obtain ⟨⟨c, rfl⟩, -⟩ := hok
    have hread : st.fs.read_bytes itemDest = some c :=
      hmirror itemDest c (List.mem_cons_self _ _)
    rw [sync_file_eq hread] at h1
    exact Except.noConfusion h1
  · -- cons file ok, rest raises: impossible
    intro dest st nm rest itemDest dl upd st1 h1 e h2 ih hok hmirror
    exfalso
    simp only [entriesAllOk, Bool.and_eq_true, Option.isSome_iff_exists] at hok
    obtain ⟨⟨c, rfl⟩, hok'⟩ := hok
    have hread : st.fs.read_bytes itemDest = some c :=
      hmirror itemDest c (List.mem_cons_self _ _)
    rw [sync_file_eq hread] at h1
    obtain ⟨h1a, h1b⟩ := Prod.mk.injEq .. ▸ Except.ok.inj h1
    have hmirror1 : ∀ p c', (p, some c') ∈ entriesDownloads rest dest →
        st1.fs.read_bytes p = some c' := by
      intro p c' hp
      rw [← h1b]
      exact hmirror p c' (List.mem_cons_of_mem _ hp)
    obtain ⟨n, hok2⟩ := ih hok' hmirror1
    exact Except.noConfusion (h2.symm.trans hok2)
  · -- cons file ok, rest ok
    intro dest st nm rest itemDest dl upd st1 h1 o' h2 ih hok hmirror
    simp only [entriesAllOk, Bool.and_eq_true, Option.isSome_iff_exists] at hok
    obtain ⟨⟨c, rfl⟩, hok'⟩ := hok
    have hread : st.fs.read_bytes itemDest = some c :=
      hmirror itemDest c (List.mem_cons_self _ _)
    have h1' : sync_file (some c) itemDest st = .ok (false, bump st) := sync_file_eq hread
    obtain ⟨h1a, h1b⟩ := Prod.mk.injEq .. ▸ Except.ok.inj (h1'.symm.trans h1)
    have hmirror1 : ∀ p c', (p, some c') ∈ entriesDownloads rest dest →
        st1.fs.read_bytes p = some c' := by
      intro p c' hp
      rw [← h1b]
      exact hmirror p c' (List.mem_cons_of_mem _ hp)
    obtain ⟨n, hok2⟩ := ih hok' hmirror1
    obtain rfl := Except.ok.inj (h2.symm.trans hok2)
    refine ⟨n, ?_⟩
    simp only [syncEntries, h1, h2, entriesTargets_cons_file]
    rw [← h1a, ← h1b]
    simp [bump]
  · -- cons dir: sub-listing raises: impossible
    intro dest st nm rest itemDest lo e h1 ih1 hok hmirror
    exfalso
    simp only [entriesAllOk, Bool.and_eq_true] at hok
    have hmirror1 : ∀ p c, (p, some c) ∈ listingDownloads lo itemDest →
        st.fs.read_bytes p = some c := by
      intro p c hp
      exact hmirror p c (List.mem_append_left _ hp)
    obtain ⟨n, hok1⟩ := ih1 hok.1 hmirror1
    rw [h1] at hok1
    exact Except.noConfusion hok1
  · -- cons dir ok, rest raises: impossible
    intro dest st nm rest itemDest lo o1 h1 e h2 ih1 ih2 hok hmirror
    exfalso
    simp only [entriesAllOk, Bool.and_eq_true] at hok
    have hmirror1 : ∀ p c, (p, some c) ∈ listingDownloads lo itemDest →
        st.fs.read_bytes p = some c := by
      intro p c hp
      exact hmirror p c (List.mem_append_left _ hp)
    obtain ⟨n, hok1⟩ := ih1 hok.1 hmirror1
    obtain rfl := Except.ok.inj (h1.symm.trans hok1)
    have hmirror2 : ∀ p c, (p, some c) ∈ entriesDownloads rest dest →
        (⟨st.fs, n⟩ : St).fs.read_bytes p = some c := by
      intro p c hp
      exact hmirror p c (List.mem_append_right _ hp)
    obtain ⟨n2, hok2⟩ := ih2 hok.2 hmirror2
    exact Except.noConfusion (h2.symm.trans hok2)
  · -- cons dir ok, rest ok
    intro dest st nm rest itemDest lo o1 h1 o2 h2 ih1 ih2 hok hmirror
    simp only [entriesAllOk, Bool.and_eq_true] at hok
    have hmirror1 : ∀ p c, (p, some c) ∈ listingDownloads lo itemDest →
        st.fs.read_bytes p = some c := by
      intro p c hp
      exact hmirror p c (List.mem_append_left _ hp)
    obtain ⟨n, hok1⟩ := ih1 hok.1 hmirror1
    obtain rfl := Except.ok.inj (h1.symm.trans hok1)
    have hmirror2 : ∀ p c, (p, some c) ∈ entriesDownloads rest dest →
        (⟨st.fs, n⟩ : St).fs.read_bytes p = some c := by
      intro p c hp
      exact hmirror p c (List.mem_append_right _ hp)
    obtain ⟨n2, hok2⟩ := ih2 hok.2 hmirror2
    obtain rfl := Except.ok.inj (h2.symm.trans hok2)
    refine ⟨n2, ?_⟩
    simp only [syncEntries, h1, h2, entriesTargets_cons_dir]
    simp
  · -- cons other
    intro dest st nm rest ih hok hmirror
    simp only [syncEntries]
    exact ih (by simpa [entriesAllOk] using hok) hmirror

/-! ## Pruning lemmas -/

lemma contains_false_iff {l : List Path} {p : Path} : l.contains p = false ↔ p ∉ l := by
  constructor
  · intro h hc
    rw [contains_iff.mpr hc] at h
    exact Bool.noConfusion h
  · intro h
    cases hc : l.contains p
    · rfl
    · exact absurd (contains_iff.mp hc) h

lemma staleCond_iff {g : FS} {synced : List Path} {p : Path} :
    (g.isFile p && !(synced.contains p)) = true ↔ g.isFile p = true ∧ p ∉ synced := by
  rw [Bool.and_eq_true, Bool.not_eq_true']
  exact and_congr Iff.rfl contains_false_iff

lemma isFile_unlink_ne {g : FS} {p q : Path} (h : q ≠ p) :
    (g.unlink p).isFile q = g.isFile q := by
  rw [FS.isFile, FS.isFile, read_unlink_ne g h]

lemma removeFilesPass_dirs (synced : List Path) (l : List Path) (acc : List Path) (g : FS) :
    (removeFilesPass synced l (acc, g)).2.dirs = g.dirs := by
  induction l generalizing acc g with
  | nil => rfl
  | cons p ps ih =>
    simp only [removeFilesPass]
    by_cases hc : (g.isFile p && !(synced.contains p)) = true
    · rw [if_pos hc, ih]
      rfl
    · rw [if_neg hc, ih]

lemma removeFilesPass_read {synced : List Path} {l : List Path} (hnd : l.Nodup)
    (acc : List Path) (g : FS) (q : Path) :
    (removeFilesPass synced l (acc, g)).2.read_bytes q =
      if q ∈ l ∧ g.isFile q = true ∧ q ∉ synced then none else g.read_bytes q := by
  induction l generalizing acc g with
  | nil => simp [removeFilesPass]
  | cons p ps ih =>
    obtain ⟨hp, hnd'⟩ := List.nodup_cons.mp hnd
    simp only [removeFilesPass]
    by_cases hc : (g.isFile p && !(synced.contains p)) = true
    · rw [if_pos hc]
      obtain ⟨hcf, hcs⟩ := staleCond_iff.mp hc
      rw [ih hnd']
      by_cases hqp : q = p
      · subst hqp
        rw [if_neg (fun hmem => hp hmem.1), if_pos ⟨List.mem_cons_self _ _, hcf, hcs⟩]
        exact read_unlink_self g q
      · rw [isFile_unlink_ne hqp, read_unlink_ne g hqp]
        by_cases hq : q ∈ ps ∧ g.isFile q = true ∧ q ∉ synced
        · rw [if_pos hq, if_pos ⟨List.mem_cons_of_mem _ hq.1, hq.2⟩]
        · rw [if_neg hq, if_neg ?_]
          intro hq'
          rcases List.mem_cons.mp hq'.1 with rfl | hmem
          · exact hqp rfl
          · exact hq ⟨hmem, hq'.2⟩
    · rw [if_neg hc, ih hnd']
      by_cases hqp : q = p
      · subst hqp
        rw [if_neg (fun hmem => hp hmem.1), if_neg ?_]
        intro hq'
        exact hc (staleCond_iff.mpr hq'.2)
      · by_cases hq : q ∈ ps ∧ g.isFile q = true ∧ q ∉ synced
        · rw [if_pos hq, if_pos ⟨List.mem_cons_of_mem _ hq.1, hq.2⟩]
        · rw [if_neg hq, if_neg ?_]
          intro hq'
          rcases List.mem_cons.mp hq'.1 with rfl | hmem
          · exact hqp rfl
          · exact hq ⟨hmem, hq'.2⟩

lemma removeFilesPass_removed (synced : List Path) {l : List Path} (hnd : l.Nodup)
    (acc : List Path) (g : FS) :
    (removeFilesPass synced l (acc, g)).1 =
      acc ++ l.filter (fun p => g.isFile p && !(synced.contains p)) := by
  induction l generalizing acc g with
  | nil => simp [removeFilesPass]
  | cons p ps ih =>
    obtain ⟨hp, hnd'⟩ := List.nodup_cons.mp hnd
    simp only [removeFilesPass, List.filter_cons]
    by_cases hc : (g.isFile p && !(synced.contains p)) = true
    · rw [if_pos hc, if_pos hc, ih hnd']
      have hcongr : List.filter (fun q => (g.unlink p).isFile q && !(synced.contains q)) ps
          = List.filter (fun q => g.isFile q && !(synced.contains q)) ps := by
        apply List.filter_congr
        intro a ha
        have hap : a ≠ p := fun hc' => hp (hc' ▸ ha)
        rw [isFile_unlink_ne hap]
      rw [hcongr]
      simp
    · rw [if_neg hc, if_neg hc, ih hnd']

lemma removeFilesPass_noop {synced : List Path} {l : List Path}
    {acc : List Path} {g : FS}
    (h : ∀ p ∈ l, ¬(g.isFile p = true ∧ p ∉ synced)) :
    removeFilesPass synced l (acc, g) = (acc, g) := by
  induction l with
  | nil => rfl
  | cons p ps ih =>
    simp only [removeFilesPass]
    rw [if_neg ?_]
    · exact ih (fun q hq => h q (List.mem_cons_of_mem _ hq))
    · intro hc
      exact h p (List.mem_cons_self _ _) (staleCond_iff.mp hc)

lemma removeDirsPass_files (l : List Path) (g : FS) :
    (removeDirsPass l g).files = g.files := by
  induction l generalizing g with
  | nil => rfl
  | cons p ps ih =>
    simp only [removeDirsPass]
    rw [ih]
    by_cases hc : (g.isDir p && !(g.hasChild p)) = true
    · rw [if_pos hc]
      rfl
    · rw [if_neg hc]

lemma removeDirsPass_read (l : List Path) (g : FS) (q : Path) :
    (removeDirsPass l g).read_bytes q = g.read_bytes q := by
  rw [FS.read_bytes, FS.read_bytes, removeDirsPass_files]

lemma removeDirsPass_dirs_sub {l : List Path} {g : FS} {d : Path}
    (h : d ∈ (removeDirsPass l g).dirs) : d ∈ g.dirs := by
  induction l generalizing g with
  | nil => exact h
  | cons p ps ih =>
    simp only [removeDirsPass] at h
    by_cases hc : (g.isDir p && !(g.hasChild p)) = true
    · rw [if_pos hc] at h
      exact (mem_dirs_rmdir.mp (ih h)).1
    · rw [if_neg hc] at h
      exact ih h

lemma removeDirsPass_keep {l : List Path} {g : FS} {d : Path}
    (hmem : d ∈ g.dirs) (hnl : d ∉ l) : d ∈ (removeDirsPass l g).dirs := by
  induction l generalizing g with
  | nil => exact hmem
  | cons p ps ih =>
    have hdp : d ≠ p := fun hc => hnl (hc ▸ List.mem_cons_self _ _)
    have hnl' : d ∉ ps := fun hc => hnl (List.mem_cons_of_mem _ hc)
    simp only [removeDirsPass]
    by_cases hc : (g.isDir p && !(g.hasChild p)) = true
    · rw [if_pos hc]
      exact ih (mem_dirs_rmdir.mpr ⟨hmem, hdp⟩) hnl'
    · rw [if_neg hc]
      exact ih hmem hnl'

/-- Core correctness of the empty-directory sweep: processing in an order
where no path is followed by a strict descendant, every processed directory
that survives still has a child. -/
lemma removeDirsPass_no_empty {l : List Path} {g : FS}
    (hord : List.Pairwise (fun a b => ¬ Below a b) l) :
    ∀ d ∈ l, (removeDirsPass l g).isDir d = true →
      (removeDirsPass l g).hasChild d = true := by
  induction l generalizing g with
  | nil => intro d hd; exact absurd hd (List.not_mem_nil _)
  | cons p ps ih =>
    obtain ⟨hhead, htail⟩ := List.pairwise_cons.mp hord
    intro d hd hdir
    rcases List.mem_cons.mp hd with rfl | hd'
    · -- d = p: it survived, so it was kept with a child at its step
      simp only [removeDirsPass] at hdir ⊢
      by_cases hpd : g.isDir d = true
      · by_cases hch : g.hasChild d = true
        · rw [if_neg (by simp [hpd, hch])] at hdir ⊢
          obtain ⟨q, hq, hlen, hpre⟩ := hasChild_iff.mp hch
          have hqd : q ≠ d := by
            intro hc
            rw [hc] at hlen
            omega
          have hbel : Below d q := ⟨hpre, hqd⟩
          have hqnl : q ∉ ps := fun hc => hhead q hc hbel
          rw [hasChild_iff]
          refine ⟨q, ?_, hlen, hpre⟩
          rcases mem_allPaths.mp hq with hf | hdq
          · rw [mem_allPaths]
            left
            obtain ⟨b, hb⟩ := isFile_iff.mp hf
            exact isFile_iff.mpr ⟨b, by rw [removeDirsPass_read]; exact hb⟩
          · rw [mem_allPaths, isDir_iff]
            exact Or.inr (removeDirsPass_keep (isDir_iff.mp hdq) hqnl)
        · -- removed at its own step: cannot be a dir afterwards
          exfalso
          have hch' : g.hasChild d = false := Bool.eq_false_iff.mpr hch
          rw [if_pos (by simp [hpd, hch'])] at hdir
          have := removeDirsPass_dirs_sub (isDir_iff.mp hdir)
          exact (mem_dirs_rmdir.mp this).2 rfl
      · exfalso
        have hpd' : g.isDir d = false := Bool.eq_false_iff.mpr hpd
        rw [if_neg (by simp [hpd'])] at hdir
        exact hpd (isDir_iff.mpr (removeDirsPass_dirs_sub (isDir_iff.mp hdir)))
    · -- d in the tail: apply the induction hypothesis to the next state
      simp only [removeDirsPass] at hdir ⊢
      by_cases hc : (g.isDir p && !(g.hasChild p)) = true
      · rw [if_pos hc] at hdir ⊢
        exact ih htail d hd' hdir
      · rw [if_neg hc] at hdir ⊢
        exact ih htail d hd' hdir

instance (d p : Path) : Decidable (Below d p) :=
  decidable_of_iff (d.isPrefixOf p = true ∧ p ≠ d)
    (and_congr isPrefixOf_eq_true Iff.rfl)

lemma allPaths_rmdir_sub {fs : FS} {p q : Path} (h : q ∈ (fs.rmdir p).allPaths) :
    q ∈ fs.allPaths := by
  rcases mem_allPaths.mp h with hf | hd
  · rw [FS.isFile, read_rmdir] at hf
    exact mem_allPaths.mpr (Or.inl hf)
  · exact mem_allPaths.mpr (Or.inr (isDir_iff.mpr (mem_dirs_rmdir.mp (isDir_iff.mp hd)).1))

/-- `rmdir` on a childless directory keeps the filesystem well-formed. -/
lemma closed_rmdir {fs : FS} {p : Path} (h : fs.ClosedB = true)
    (hch : fs.hasChild p = false) : (fs.rmdir p).ClosedB = true := by
  rw [closedB_iff] at h ⊢
  intro q hq r hr
  have hq' : q ∈ fs.allPaths := allPaths_rmdir_sub hq
  have hr' : r ∈ fs.dirs := h q hq' r hr
  rw [mem_dirs_rmdir]
  refine ⟨hr', ?_⟩
  intro hrp
  subst hrp
  obtain ⟨⟨t, rfl⟩, hne⟩ := hr
  cases t with
  | nil => exact hne (by simp)
  | cons x ts =>
    have hchild : (r ++ [x]) ∈ fs.allPaths := by
      cases ts with
      | nil => exact hq'
      | cons y ys =>
        have hbel : Below (r ++ [x]) (r ++ x :: y :: ys) := by
          refine ⟨⟨y :: ys, by simp⟩, ?_⟩
          intro hc
          have := congrArg List.length hc
          simp at this
        exact mem_allPaths.mpr (Or.inr (isDir_iff.mpr (h _ hq' _ hbel)))
    have : fs.hasChild r = true := by
      rw [hasChild_iff]
      exact ⟨r ++ [x], hchild, by simp, ⟨[x], rfl⟩⟩
    rw [hch] at this
    exact Bool.noConfusion this

lemma removeDirsPass_closed {l : List Path} {g : FS} (h : g.ClosedB = true) :
    (removeDirsPass l g).ClosedB = true := by
  induction l generalizing g with
  | nil => exact h
  | cons p ps ih =>
    simp only [removeDirsPass]
    by_cases hc : (g.isDir p && !(g.hasChild p)) = true
    · rw [if_pos hc]
      refine ih (closed_rmdir h ?_)
      rw [Bool.and_eq_true, Bool.not_eq_true'] at hc
      exact hc.2
    · rw [if_neg hc]
      exact ih h

lemma removeFilesPass_closed {synced l acc : List Path} {g : FS} (h : g.ClosedB = true) :
    (removeFilesPass synced l (acc, g)).2.ClosedB = true := by
  induction l generalizing acc g with
  | nil => exact h
  | cons p ps ih =>
    simp only [removeFilesPass]
    by_cases hc : (g.isFile p && !(synced.contains p)) = true
    · rw [if_pos hc]
      exact ih (closed_unlink h)
    · rw [if_neg hc]
      exact ih h

/-- Pointwise description of the file table after `remove_stale_files`: a
file disappears exactly when the destination existed and the file was a
stale regular file strictly below it. -/
lemma remove_stale_read (dest : Path) (synced : List Path) (fs : FS) (q : Path) :
    (remove_stale_files dest synced fs).2.read_bytes q =
      if fs.pathExists dest = true ∧ Below dest q ∧ fs.isFile q = true ∧ q ∉ synced
      then none else fs.read_bytes q := by
  by_cases hex : fs.pathExists dest = true
  · have h2 : (remove_stale_files dest synced fs).2 =
        removeDirsPass
          ((sortPaths ((removeFilesPass synced (sortPaths (fs.rglob dest)) ([], fs)).2.rglob dest)).reverse)
          (removeFilesPass synced (sortPaths (fs.rglob dest)) ([], fs)).2 := by
      rw [remove_stale_files, if_pos hex]
    rw [h2, removeDirsPass_read, removeFilesPass_read (nodup_sortPaths (nodup_rglob fs dest))]
    by_cases hc : Below dest q ∧ fs.isFile q = true ∧ q ∉ synced
    · rw [if_pos ⟨mem_sortPaths.mpr (mem_rglob.mpr
        ⟨mem_allPaths.mpr (Or.inl hc.2.1), hc.1⟩), hc.2.1, hc.2.2⟩, if_pos ⟨hex, hc⟩]
    · rw [if_neg ?_, if_neg (fun hcontra => hc hcontra.2)]
      intro hcontra
      exact hc ⟨(mem_rglob.mp (mem_sortPaths.mp hcontra.1)).2, hcontra.2⟩
  · rw [remove_stale_files, if_neg hex, if_neg (fun hcontra => hex hcontra.1)]

/-- The removed-file report of `remove_stale_files`. -/
lemma remove_stale_removed (dest : Path) (synced : List Path) (fs : FS) :
    (remove_stale_files dest synced fs).1 =
      if fs.pathExists dest = true
      then (sortPaths (fs.rglob dest)).filter (fun p => fs.isFile p && !(synced.contains p))
      else [] := by
  by_cases hex : fs.pathExists dest = true
  · rw [remove_stale_files, if_pos hex, if_pos hex]
    have := removeFilesPass_removed synced (nodup_sortPaths (nodup_rglob fs dest)) [] fs
    rw [this]
    rfl
  · rw [remove_stale_files, if_neg hex, if_neg hex]

lemma remove_stale_removed_nil {dest : Path} {synced : List Path} {fs : FS}
    (h : ∀ p, Below dest p → fs.isFile p = true → p ∈ synced) :
    (remove_stale_files dest synced fs).1 = [] := by
  rw [remove_stale_removed]
  by_cases hex : fs.pathExists dest = true
  · rw [if_pos hex]
    rw [List.filter_eq_nil_iff]
    intro p hp
    intro hcond
    obtain ⟨hf, hns⟩ := staleCond_iff.mp hcond
    exact hns (h p (mem_rglob.mp (mem_sortPaths.mp hp)).2 hf)
  · rw [if_neg hex]

lemma remove_stale_dirs_sub {dest : Path} {synced : List Path} {fs : FS} {d : Path}
    (h : d ∈ (remove_stale_files dest synced fs).2.dirs) : d ∈ fs.dirs := by
  by_cases hex : fs.pathExists dest = true
  · rw [remove_stale_files, if_pos hex] at h
    have := removeDirsPass_dirs_sub h
    rw [removeFilesPass_dirs] at this
    exact this
  · rw [remove_stale_files, if_neg hex] at h
    exact h

/-- The destination root itself is never deleted by `remove_stale_files`. -/
lemma remove_stale_root {dest : Path} {synced : List Path} {fs : FS}
    (h : fs.isDir dest = true) :
    (remove_stale_files dest synced fs).2.isDir dest = true := by
  by_cases hex : fs.pathExists dest = true
  · rw [remove_stale_files, if_pos hex]
    rw [FS.isDir, contains_iff]
    refine removeDirsPass_keep ?_ ?_
    · rw [removeFilesPass_dirs]
      exact isDir_iff.mp h
    · intro hc
      rw [List.mem_reverse] at hc
      exact (mem_rglob.mp (mem_sortPaths.mp hc)).2.2 rfl
  · rw [remove_stale_files, if_neg hex]
    exact h

/-- After `remove_stale_files`, no directory strictly below the destination
is empty. -/
lemma remove_stale_no_empty {dest : Path} {synced : List Path} {fs : FS}
    (hcl : fs.ClosedB = true) :
    ∀ d, Below dest d → (remove_stale_files dest synced fs).2.isDir d = true →
      (remove_stale_files dest synced fs).2.hasChild d = true := by
  intro d hbel hdir
  by_cases hex : fs.pathExists dest = true
  · rw [remove_stale_files, if_pos hex] at hdir ⊢
    refine removeDirsPass_no_empty (rev_sorted_no_ext _) d ?_ hdir
    rw [List.mem_reverse, mem_sortPaths, mem_rglob]
    have hd1 : d ∈ (removeFilesPass synced (sortPaths (fs.rglob dest)) ([], fs)).2.dirs :=
      removeDirsPass_dirs_sub (isDir_iff.mp hdir)
    exact ⟨mem_allPaths.mpr (Or.inr (isDir_iff.mpr hd1)), hbel⟩
  · exfalso
    rw [remove_stale_files, if_neg hex] at hdir
    have hmem : d ∈ fs.allPaths := mem_allPaths.mpr (Or.inr hdir)
    have : dest ∈ fs.dirs := closedB_iff.mp hcl d hmem dest hbel
    apply hex
    rw [FS.pathExists, FS.isDir, contains_iff.mpr this, Bool.or_true]

lemma remove_stale_closed {dest : Path} {synced : List Path} {fs : FS}
    (h : fs.ClosedB = true) : (remove_stale_files dest synced fs).2.ClosedB = true := by
  by_cases hex : fs.pathExists dest = true
  · rw [remove_stale_files, if_pos hex]
    exact removeDirsPass_closed (removeFilesPass_closed h)
  · rw [remove_stale_files, if_neg hex]
    exact h

/-! ## Skill-level lemmas -/

lemma sync_skill_dir_eq (name : String) (lo : ListingOutcome) (dest : Path) (st : St) :
    sync_skill ⟨name, .dirMode lo, dest⟩ st =
      match sync_directory lo dest st with
      | .error e => .error e
      | .ok o => .ok ((o.updated, (remove_stale_files dest o.synced o.st.fs).1),
          { o.st with fs := (remove_stale_files dest o.synced o.st.fs).2 }) := rfl

lemma sync_skill_file_eq (name : String) (dl : Option Bytes) (dest : Path) (st : St) :
    sync_skill ⟨name, .fileMode dl, dest⟩ st =
      match sync_file dl dest st with
      | .error e => .error e
      | .ok (upd, st') => .ok (((if upd then [dest] else []), []), st') := rfl

/-- All bytes a skill's sync will ever have already fetched are present. -/
def SkillMirror (sk : Skill) (fs : FS) : Prop :=
  ∀ p c, (p, some c) ∈ skillDownloads sk → fs.read_bytes p = some c

/-- In directory mode, every regular file strictly below the destination is
one of the skill's targets (the mirror holds no extraneous files). -/
def SkillConfined (sk : Skill) (fs : FS) : Prop :=
  match sk.source with
  | .fileMode _ => True
  | .dirMode lo => ∀ p, Below sk.destination p → fs.isFile p = true →
      p ∈ listingTargets lo sk.destination

lemma read_eq_of_files_eq {fs1 fs2 : FS} (h : fs1.files = fs2.files) (p : Path) :
    fs1.read_bytes p = fs2.read_bytes p := by
  rw [FS.read_bytes, FS.read_bytes, h]

/-- A successful `sync_skill` only touches paths below the destination. -/
lemma sync_skill_frame {sk : Skill} {st st' : St} {r : List Path × List Path}
    (h : sync_skill sk st = .ok (r, st')) :
    ∀ p, ¬ (sk.destination <+: p) → st'.fs.read_bytes p = st.fs.read_bytes p := by
  obtain ⟨name, src, dest⟩ := sk
  intro p hp
  cases src with
  | fileMode dl =>
    rw [sync_skill_file_eq] at h
    cases hsf : sync_file dl dest st with
    | error e => rw [hsf] at h; exact Except.noConfusion h
    | ok v =>
      obtain ⟨upd, st1⟩ := v
      rw [hsf] at h
      obtain ⟨-, h2⟩ := Prod.mk.injEq .. ▸ Except.ok.inj h
      obtain ⟨f1, -, -, -, -, -⟩ := sync_file_fs hsf
      rw [← h2]
      exact f1 p (fun hc => hp (hc ▸ List.prefix_refl p))
  | dirMode lo =>
    rw [sync_skill_dir_eq] at h
    cases hsd : sync_directory lo dest st with
    | error e => rw [hsd] at h; exact Except.noConfusion h
    | ok o =>
      rw [hsd] at h
      obtain ⟨-, h2⟩ := Prod.mk.injEq .. ▸ Except.ok.inj h
      obtain ⟨-, g2, -, -, -, -, -⟩ := sync_ok_facts.1 lo dest st o hsd
      have hnb : ¬ Below dest p := fun hb => hp hb.1
      have hfr : o.st.fs.read_bytes p = st.fs.read_bytes p := by
        refine g2 p ?_
        intro c hc
        exact hnb (downloads_below.1 lo dest (p, some c) hc)
      have hread := remove_stale_read dest o.synced o.st.fs p
      rw [if_neg (fun hc => hnb hc.2.1)] at hread
      rw [← h2]
      show (remove_stale_files dest o.synced o.st.fs).2.read_bytes p = _
      rw [hread, hfr]

/-- A successful `sync_skill` keeps the directory-growth invariant. -/
lemma sync_skill_dirs {sk : Skill} {st st' : St} {r : List Path × List Path}
    (h : sync_skill sk st = .ok (r, st')) :
    ∀ d, d ∈ st'.fs.dirs → d ∈ st.fs.dirs ∨ ∃ q ∈ skillTargets sk, Below d q := by
  obtain ⟨name, src, dest⟩ := sk
  intro d hd
  cases src with
  | fileMode dl =>
    rw [sync_skill_file_eq] at h
    cases hsf : sync_file dl dest st with
    | error e => rw [hsf] at h; exact Except.noConfusion h
    | ok v =>
      obtain ⟨upd, st1⟩ := v
      rw [hsf] at h
      obtain ⟨-, h2⟩ := Prod.mk.injEq .. ▸ Except.ok.inj h
      obtain ⟨-, -, -, -, f5, -⟩ := sync_file_fs hsf
      rw [← h2] at hd
      rcases f5 d hd with hd' | hbel
      · exact Or.inl hd'
      · exact Or.inr ⟨dest, List.mem_cons_self _ _, hbel⟩
  | dirMode lo =>
    rw [sync_skill_dir_eq] at h
    cases hsd : sync_directory lo dest st with
    | error e => rw [hsd] at h; exact Except.noConfusion h
    | ok o =>
      rw [hsd] at h
      obtain ⟨-, h2⟩ := Prod.mk.injEq .. ▸ Except.ok.inj h
      obtain ⟨-, -, -, -, g5, -, -⟩ := sync_ok_facts.1 lo dest st o hsd
      rw [← h2] at hd
      have hd1 : d ∈ o.st.fs.dirs := remove_stale_dirs_sub hd
      rcases g5 d hd1 with hd' | ⟨q, hq, hbel⟩
      · exact Or.inl hd'
      · exact Or.inr ⟨q, hq, hbel⟩

/-- A successful `sync_skill` preserves filesystem well-formedness. -/
lemma sync_skill_closed {sk : Skill} {st st' : St} {r : List Path × List Path}
    (h : sync_skill sk st = .ok (r, st')) (hcl : st.fs.ClosedB = true) :
    st'.fs.ClosedB = true := by
  obtain ⟨name, src, dest⟩ := sk
  cases src with
  | fileMode dl =>
    rw [sync_skill_file_eq] at h
    cases hsf : sync_file dl dest st with
    | error e => rw [hsf] at h; exact Except.noConfusion h
    | ok v =>
      obtain ⟨upd, st1⟩ := v
      rw [hsf] at h
      obtain ⟨-, h2⟩ := Prod.mk.injEq .. ▸ Except.ok.inj h
      obtain ⟨-, -, -, -, -, f6⟩ := sync_file_fs hsf
      rw [← h2]
      exact f6 hcl
  | dirMode lo =>
    rw [sync_skill_dir_eq] at h
    cases hsd : sync_directory lo dest st with
    | error e => rw [hsd] at h; exact Except.noConfusion h
    | ok o =>
      rw [hsd] at h
      obtain ⟨-, h2⟩ := Prod.mk.injEq .. ▸ Except.ok.inj h
      obtain ⟨-, -, -, -, -, g6, -⟩ := sync_ok_facts.1 lo dest st o hsd
      rw [← h2]
      exact remove_stale_closed (g6 hcl)

/-- Establishment: after a successful fully-fetched sync of one skill, the
mirror and confinement facts hold of the resulting filesystem. -/
lemma sync_skill_establish {sk : Skill} {st st' : St} {r : List Path × List Path}
    (h : sync_skill sk st = .ok (r, st'))
    (hok : skillAllOk sk = true)
    (hnd : (skillTargets sk).Nodup)
    (hcl : st.fs.ClosedB = true) :
    SkillMirror sk st'.fs ∧ SkillConfined sk st'.fs := by
  obtain ⟨name, src, dest⟩ := sk
  cases src with
  | fileMode dl =>
    rw [sync_skill_file_eq] at h
    cases hsf : sync_file dl dest st with
    | error e => rw [hsf] at h; exact Except.noConfusion h
    | ok v =>
      obtain ⟨upd, st1⟩ := v
      rw [hsf] at h
      obtain ⟨-, h2⟩ := Prod.mk.injEq .. ▸ Except.ok.inj h
      obtain ⟨-, -, f3, -, -, -⟩ := sync_file_fs hsf
      constructor
      · intro p c hp
        simp only [skillDownloads, List.mem_singleton] at hp
        obtain ⟨rfl, hdl⟩ := Prod.mk.injEq .. ▸ hp
        rw [← h2]
        exact f3 c hdl.symm
      · exact trivial
  | dirMode lo =>
    rw [sync_skill_dir_eq] at h
    cases hsd : sync_directory lo dest st with
    | error e => rw [hsd] at h; exact Except.noConfusion h
    | ok o =>
      rw [hsd] at h
      obtain ⟨-, h2⟩ := Prod.mk.injEq .. ▸ Except.ok.inj h
      obtain ⟨g1, -, -, -, -, g6, g7⟩ := sync_ok_facts.1 lo dest st o hsd
      have hcl1 : o.st.fs.ClosedB = true := g6 hcl
      constructor
      · intro p c hp
        have hp' : (p, some c) ∈ listingDownloads lo dest := hp
        have hval : o.st.fs.read_bytes p = some c := g7 hnd p c hp'
        have hsync : p ∈ o.synced := by
          rw [g1]
          exact mem_listingTargets.mpr ⟨some c, hp'⟩
        rw [← h2]
        show (remove_stale_files dest o.synced o.st.fs).2.read_bytes p = some c
        rw [remove_stale_read, if_neg (fun hc => hc.2.2.2 hsync), hval]
      · intro p hbel hfile
        rw [← h2] at hfile
        have hread := remove_stale_read dest o.synced o.st.fs p
        by_cases hmem : p ∈ o.synced
        · rw [g1] at hmem
          exact hmem
        · exfalso
          obtain ⟨b, hb⟩ := isFile_iff.mp hfile
          show False
          by_cases hex : o.st.fs.pathExists dest = true
          · have hf1 : o.st.fs.isFile p = true := by
              rw [if_neg ?_] at hread
              · exact isFile_iff.mpr ⟨b, by rw [← hread]; exact hb⟩
              · intro hc
                rw [show (remove_stale_files dest o.synced o.st.fs).2.read_bytes p = some b from hb]
                  at hread
                rw [if_pos hc] at hread
                exact Option.noConfusion hread
            rw [if_pos ⟨hex, hbel, hf1, hmem⟩] at hread
            rw [hread] at hb
            exact Option.noConfusion hb
          · -- destination absent yet a file below it: violates closure
            have hf1 : o.st.fs.isFile p = true := by
              rw [if_neg (fun hc => hex hc.1)] at hread
              exact isFile_iff.mpr ⟨b, by rw [← hread]; exact hb⟩
            have hmem' : p ∈ o.st.fs.allPaths := mem_allPaths.mpr (Or.inl hf1)
            have : dest ∈ o.st.fs.dirs := closedB_iff.mp hcl1 p hmem' dest hbel
            apply hex
            rw [FS.pathExists, FS.isDir, contains_iff.mpr this, Bool.or_true]

/-- Totality of one skill under the separation hypotheses. -/
lemma sync_skill_total (sk : Skill) (st : St) {D T : List Path}
    (hclean : skillClean sk = true)
    (htgt : ∀ q ∈ skillTargets sk, q ∈ T)
    (hT : TargetsOk D T)
    (hinv : DirsInv D T st.fs) :
    ∃ r st', sync_skill sk st = .ok (r, st') := by
  obtain ⟨name, src, dest⟩ := sk
  cases src with
  | fileMode dl =>
    have hdir : st.fs.isDir dest = false :=
      no_dir_at_target hT hinv (htgt dest (List.mem_cons_self _ _))
    obtain ⟨upd, st', hsf⟩ := sync_file_total dl hdir
    refine ⟨((if upd then [dest] else []), []), st', ?_⟩
    rw [sync_skill_file_eq, hsf]
  | dirMode lo =>
    obtain ⟨o, hsd⟩ := sync_total.1 lo dest st D T hclean htgt hT hinv
    refine ⟨(o.updated, (remove_stale_files dest o.synced o.st.fs).1),
      { o.st with fs := (remove_stale_files dest o.synced o.st.fs).2 }, ?_⟩
    rw [sync_skill_dir_eq, hsd]

/-- No-op: a fully-fetched skill whose mirror is already exact reports no
updates and no removals, and leaves the file table untouched. -/
lemma sync_skill_noop {sk : Skill} {st : St}
    (hok : skillAllOk sk = true)
    (hmir : SkillMirror sk st.fs)
    (hconf : SkillConfined sk st.fs) :
    ∃ st', sync_skill sk st = .ok (([], []), st') ∧
      st'.fs.files = st.fs.files ∧ (∀ d, d ∈ st'.fs.dirs → d ∈ st.fs.dirs) := by
  obtain ⟨name, src, dest⟩ := sk
  cases src with
  | fileMode dl =>
    simp only [skillAllOk, Option.isSome_iff_exists] at hok
    obtain ⟨c, rfl⟩ := hok
    have hread : st.fs.read_bytes dest = some c :=
      hmir dest c (List.mem_cons_self _ _)
    refine ⟨bump st, ?_, rfl, fun d hd => hd⟩
    rw [sync_skill_file_eq, sync_file_eq hread]
    rfl
  | dirMode lo =>
    have hok' : listingAllOk lo = true := hok
    have hmir' : ∀ p c, (p, some c) ∈ listingDownloads lo dest →
        st.fs.read_bytes p = some c := hmir
    obtain ⟨n, hsd⟩ := sync_noop.1 lo dest st hok' hmir'
    have hconf' : ∀ p, Below dest p → st.fs.isFile p = true →
        p ∈ listingTargets lo dest := hconf
    have hrem : (remove_stale_files dest (listingTargets lo dest) st.fs).1 = [] :=
      remove_stale_removed_nil hconf'
    have hfiles : (remove_stale_files dest (listingTargets lo dest) st.fs).2.files
        = st.fs.files := by
      by_cases hex : st.fs.pathExists dest = true
      · have hnoop : removeFilesPass (listingTargets lo dest)
            (sortPaths (st.fs.rglob dest)) ([], st.fs) = ([], st.fs) := by
          refine removeFilesPass_noop ?_
          intro p hp hcond
          exact hcond.2 (hconf' p (mem_rglob.mp (mem_sortPaths.mp hp)).2 hcond.1)
        have h2 : (remove_stale_files dest (listingTargets lo dest) st.fs).2 =
            removeDirsPass
              ((sortPaths ((removeFilesPass (listingTargets lo dest)
                  (sortPaths (st.fs.rglob dest)) ([], st.fs)).2.rglob dest)).reverse)
              (removeFilesPass (listingTargets lo dest)
                (sortPaths (st.fs.rglob dest)) ([], st.fs)).2 := by
          rw [remove_stale_files, if_pos hex]
        rw [h2, hnoop, removeDirsPass_files]
      · have h2 : remove_stale_files dest (listingTargets lo dest) st.fs = ([], st.fs) := by
          rw [remove_stale_files, if_neg hex]
        rw [h2]
    have hdirs : ∀ d, d ∈ (remove_stale_files dest (listingTargets lo dest) st.fs).2.dirs →
        d ∈ st.fs.dirs := fun d hd => remove_stale_dirs_sub hd
    refine ⟨⟨(remove_stale_files dest (listingTargets lo dest) st.fs).2, n⟩, ?_, hfiles, hdirs⟩
    rw [sync_skill_dir_eq, hsd]
    show Except.ok ((([] : List Path),
        (remove_stale_files dest (listingTargets lo dest) st.fs).1),
        ({ fs := (remove_stale_files dest (listingTargets lo dest) st.fs).2, net := n } : St)) = _
    rw [hrem]

/-! ## Run-level lemmas -/

/-- Skill destinations are pairwise non-nested: no destination is a prefix
of (lies on the path of, or equals) another skill's destination. -/
def DestsSeparated : List Skill → Prop :=
  List.Pairwise (fun a b =>
    ¬ (a.destination <+: b.destination) ∧ ¬ (b.destination <+: a.destination))

lemma mem_skillTargets {p : Path} {sk : Skill} :
    p ∈ skillTargets sk ↔ ∃ d, (p, d) ∈ skillDownloads sk := by
  rw [skillTargets, List.mem_map]
  constructor
  · rintro ⟨⟨q, d⟩, hm, rfl⟩
    exact ⟨d, hm⟩
  · rintro ⟨d, hm⟩
    exact ⟨(p, d), hm, rfl⟩

lemma skillTargets_pre {sk : Skill} {q : Path} (h : q ∈ skillTargets sk) :
    sk.destination <+: q := by
  obtain ⟨name, src, dest⟩ := sk
  cases src with
  | fileMode dl =>
    simp only [skillTargets, skillDownloads, List.map_cons, List.map_nil,
      List.mem_singleton] at h
    subst h
    exact List.prefix_refl _
  | dirMode lo =>
    exact (listingTargets_below h).1

lemma skillMirror_mono {sk : Skill} {fs1 fs2 : FS}
    (h : ∀ p, sk.destination <+: p → fs2.read_bytes p = fs1.read_bytes p)
    (hm : SkillMirror sk fs1) : SkillMirror sk fs2 := by
  intro p c hp
  rw [h p (skillTargets_pre (mem_skillTargets.mpr ⟨some c, hp⟩))]
  exact hm p c hp

lemma skillConfined_mono {sk : Skill} {fs1 fs2 : FS}
    (h : ∀ p, sk.destination <+: p → fs2.read_bytes p = fs1.read_bytes p)
    (hc : SkillConfined sk fs1) : SkillConfined sk fs2 := by
  obtain ⟨name, src, dest⟩ := sk
  cases src with
  | fileMode dl => exact trivial
  | dirMode lo =>
    intro p hbel hfile
    refine hc p hbel ?_
    rw [FS.isFile, ← h p hbel.1]
    exact hfile

lemma processSkills_cons_inv {sk : Skill} {rest : List Skill} {st : St} {o : RunOut}
    (h : processSkills (sk :: rest) st = .ok o) :
    ∃ upd rem st1 o', sync_skill sk st = .ok ((upd, rem), st1) ∧
      processSkills rest st1 = .ok o' ∧ o.st = o'.st := by
  cases hsk : sync_skill sk st with
  | error e =>
    simp only [processSkills, hsk] at h
    exact Except.noConfusion h
  | ok v =>
    obtain ⟨⟨upd, rem⟩, st1⟩ := v
    cases hrest : processSkills rest st1 with
    | error e =>
      simp only [processSkills, hsk, hrest] at h
      exact Except.noConfusion h
    | ok o' =>
      simp only [processSkills, hsk, hrest] at h
      refine ⟨upd, rem, st1, o', rfl, hrest, ?_⟩
      by_cases hch : upd ≠ [] ∨ rem ≠ []
      · rw [if_pos hch] at h
        rw [← Except.ok.inj h]
      · rw [if_neg hch] at h
        rw [← Except.ok.inj h]

/-- Totality of a whole run under the separation hypotheses. -/
theorem processSkills_total :
    ∀ (skills : List Skill) (st : St) (D T : List Path),
      (∀ sk ∈ skills, skillClean sk = true) →
      (∀ sk ∈ skills, ∀ q ∈ skillTargets sk, q ∈ T) →
      TargetsOk D T →
      DirsInv D T st.fs →
      ∃ o, processSkills skills st = .ok o := by
  intro skills
  induction skills with
  | nil => exact fun st D T _ _ _ _ => ⟨_, rfl⟩
  | cons sk rest ih =>
    intro st D T hclean htgt hT hinv
    obtain ⟨r, st1, hsk⟩ := sync_skill_total sk st
      (hclean sk (List.mem_cons_self _ _)) (htgt sk (List.mem_cons_self _ _)) hT hinv
    obtain ⟨upd, rem⟩ := r
    have hinv1 : DirsInv D T st1.fs := by
      intro d hd
      rcases sync_skill_dirs hsk d hd with hd' | ⟨q, hq, hbel⟩
      · exact hinv d hd'
      · exact Or.inr ⟨q, htgt sk (List.mem_cons_self _ _) q hq, hbel⟩
    obtain ⟨o', hrest⟩ := ih st1 D T
      (fun s hs => hclean s (List.mem_cons_of_mem _ hs))
      (fun s hs => htgt s (List.mem_cons_of_mem _ hs)) hT hinv1
    by_cases hch : upd ≠ [] ∨ rem ≠ []
    · exact ⟨_, by simp only [processSkills, hsk, hrest]; rw [if_pos hch]⟩
    · exact ⟨_, by simp only [processSkills, hsk, hrest]; rw [if_neg hch]⟩

/-- After a successful fully-fetched run over skills with separated
destinations, every skill's mirror is exact and confined, and paths outside
all destinations are untouched. -/
theorem processSkills_run1 :
    ∀ (skills : List Skill) (st : St) (o : RunOut),
      processSkills skills st = .ok o →
      st.fs.ClosedB = true →
      DestsSeparated skills →
      (∀ sk ∈ skills, skillAllOk sk = true ∧ (skillTargets sk).Nodup) →
      (∀ sk ∈ skills, SkillMirror sk o.st.fs ∧ SkillConfined sk o.st.fs) ∧
      (∀ p, (∀ sk ∈ skills, ¬ (sk.destination <+: p)) →
        o.st.fs.read_bytes p = st.fs.read_bytes p) := by
  intro skills
  induction skills with
  | nil =>
    intro st o h _ _ _
    simp only [processSkills] at h
    obtain rfl := Except.ok.inj h
    exact ⟨fun sk hsk => absurd hsk (List.not_mem_nil _), fun p _ => rfl⟩
  | cons sk rest ih =>
    intro st o h hcl hsep hcond
    obtain ⟨upd, rem, st1, o', hsk, hrest, hsto⟩ := processSkills_cons_inv h
    obtain ⟨hhead, htail⟩ := List.pairwise_cons.mp hsep
    have hcl1 : st1.fs.ClosedB = true := sync_skill_closed hsk hcl
    obtain ⟨ihfacts, ihframe⟩ := ih st1 o' hrest hcl1 htail
      (fun s hs => hcond s (List.mem_cons_of_mem _ hs))
    obtain ⟨hmir, hconf⟩ := sync_skill_establish hsk
      (hcond sk (List.mem_cons_self _ _)).1 (hcond sk (List.mem_cons_self _ _)).2 hcl
    have hsub : ∀ p, sk.destination <+: p → o'.st.fs.read_bytes p = st1.fs.read_bytes p := by
      intro p hp
      refine ihframe p ?_
      intro s hs hc
      rcases pre_comparable hp hc with h' | h'
      · exact (hhead s hs).1 h'
      · exact (hhead s hs).2 h'
    rw [hsto]
    constructor
    · intro s hs
      rcases List.mem_cons.mp hs with rfl | hs'
      · exact ⟨skillMirror_mono hsub hmir, skillConfined_mono hsub hconf⟩
      · exact ihfacts s hs'
    · intro p hp
      rw [ihframe p (fun s hs => hp s (List.mem_cons_of_mem _ hs))]
      exact sync_skill_frame hsk p (hp sk (List.mem_cons_self _ _))

/-- Second-run no-op: with every mirror already exact, a run updates and
removes nothing and leaves the file table untouched. -/
theorem processSkills_noop :
    ∀ (skills : List Skill) (st : St),
      (∀ sk ∈ skills, skillAllOk sk = true ∧ SkillMirror sk st.fs ∧ SkillConfined sk st.fs) →
      ∃ st', processSkills skills st = .ok ⟨[], [], [], st'⟩ ∧
        st'.fs.files = st.fs.files := by
  intro skills
  induction skills with
  | nil => exact fun st _ => ⟨st, rfl, rfl⟩
  | cons sk rest ih =>
    intro st hcond
    obtain ⟨hok, hmir, hconf⟩ := hcond sk (List.mem_cons_self _ _)
    obtain ⟨st1, hsk, hfiles, hdirs⟩ := sync_skill_noop hok hmir hconf
    have hread1 : ∀ p, st1.fs.read_bytes p = st.fs.read_bytes p :=
      read_eq_of_files_eq hfiles
    have hcond1 : ∀ s ∈ rest, skillAllOk s = true ∧ SkillMirror s st1.fs ∧
        SkillConfined s st1.fs := by
      intro s hs
      obtain ⟨hok', hmir', hconf'⟩ := hcond s (List.mem_cons_of_mem _ hs)
      exact ⟨hok', skillMirror_mono (fun p _ => hread1 p) hmir',
        skillConfined_mono (fun p _ => hread1 p) hconf'⟩
    obtain ⟨st2, hrest, hfiles2⟩ := ih st1 hcond1
    refine ⟨st2, ?_, by rw [hfiles2, hfiles]⟩
    simp only [processSkills, hsk, hrest]
    rw [if_neg (by simp)]

lemma nodup_fst_eq {l : List (Path × Option Bytes)}
    (h : (l.map Prod.fst).Nodup) {p : Path} {d1 d2 : Option Bytes}
    (h1 : (p, d1) ∈ l) (h2 : (p, d2) ∈ l) : d1 = d2 := by
  induction l with
  | nil => exact absurd h1 (List.not_mem_nil _)
  | cons e es ih =>
    rw [List.map_cons] at h
    obtain ⟨hhead, htail⟩ := List.nodup_cons.mp h
    rcases List.mem_cons.mp h1 with rfl | h1'
    · rcases List.mem_cons.mp h2 with heq | h2'
      · exact (Prod.mk.injEq .. ▸ heq.symm).2
      · exact absurd (List.mem_map.mpr ⟨(p, d2), h2', rfl⟩) hhead
    · rcases List.mem_cons.mp h2 with rfl | h2'
      · exact absurd (List.mem_map.mpr ⟨(p, d1), h1', rfl⟩) hhead
      · exact ih htail h1' h2'

/-- A regular file that survives the prune below an existing-or-absent
destination must be in the synced set, on a well-formed filesystem. -/
lemma prune_confined {dest : Path} {synced : List Path} {fs : FS} {p : Path}
    (hcl : fs.ClosedB = true) (hbel : Below dest p)
    (hfile : (remove_stale_files dest synced fs).2.isFile p = true) :
    p ∈ synced := by
  obtain ⟨b, hb⟩ := isFile_iff.mp hfile
  by_cases hmem : p ∈ synced
  · exact hmem
  · exfalso
    have hread := remove_stale_read dest synced fs p
    have hnC : ¬(fs.pathExists dest = true ∧ Below dest p ∧ fs.isFile p = true ∧
        p ∉ synced) := by
      intro hC
      rw [if_pos hC] at hread
      rw [hread] at hb
      exact Option.noConfusion hb
    rw [if_neg hnC] at hread
    have hf1 : fs.isFile p = true := isFile_iff.mpr ⟨b, by rw [← hread]; exact hb⟩
    by_cases hex : fs.pathExists dest = true
    · exact hnC ⟨hex, hbel, hf1, hmem⟩
    · have hmem' : p ∈ fs.allPaths := mem_allPaths.mpr (Or.inl hf1)
      have hdest : dest ∈ fs.dirs := closedB_iff.mp hcl p hmem' dest hbel
      exact hex (by rw [FS.pathExists, FS.isDir, contains_iff.mpr hdest, Bool.or_true])

deriving instance DecidableEq for Except

instance (p q : Path) : Decidable (p <+: q) :=
  decidable_of_iff (p.isPrefixOf q = true) isPrefixOf_eq_true

instance (D T : List Path) : Decidable (TargetsOk D T) := by
  unfold TargetsOk
  infer_instance

instance (skills : List Skill) : Decidable (DestsSeparated skills) := by
  unfold DestsSeparated
  infer_instance

/-! ## Claims -/

/-- C1: after a directory-mode `sync_skill` completes (a `sync_directory`
pass followed by `remove_stale_files` on its synced set), the set of regular
files strictly below the destination is exactly the synced path set — which
equals the destination paths of all reachable file entries: no file outside
the set remains, and no path in the set whose download succeeded is
missing.  On a well-formed initial filesystem. -/
theorem C1_dir_sync_file_set_exact (name : String) (lo : ListingOutcome) (dest : Path)
    (st st' : St) (upd rem : List Path)
    (hcl : st.fs.ClosedB = true)
    (h : sync_skill ⟨name, .dirMode lo, dest⟩ st = .ok ((upd, rem), st')) :
    ∃ o, sync_directory lo dest st = .ok o ∧ o.synced = listingTargets lo dest ∧
      (∀ p, Below dest p → st'.fs.isFile p = true → p ∈ o.synced) ∧
      (∀ p c, (p, some c) ∈ listingDownloads lo dest → st'.fs.isFile p = true) := by
  rw [sync_skill_dir_eq] at h
  cases hsd : sync_directory lo dest st with
  | error e => rw [hsd] at h; exact Except.noConfusion h
  | ok o =>
    rw [hsd] at h
    obtain ⟨-, h2⟩ := Prod.mk.injEq .. ▸ Except.ok.inj h
    obtain ⟨g1, -, -, g4, -, g6, -⟩ := sync_ok_facts.1 lo dest st o hsd
    refine ⟨o, rfl, g1, ?_, ?_⟩
    · intro p hbel hfile
      rw [← h2] at hfile
      exact prune_confined (g6 hcl) hbel hfile
    · intro p c hp
      have hval : o.st.fs.isFile p = true := g4 p c hp
      have hsync : p ∈ o.synced := by
        rw [g1]
        exact mem_listingTargets.mpr ⟨some c, hp⟩
      rw [← h2]
      obtain ⟨b, hb⟩ := isFile_iff.mp hval
      show (remove_stale_files dest o.synced o.st.fs).2.isFile p = true
      refine isFile_iff.mpr ⟨b, ?_⟩
      rw [remove_stale_read, if_neg (fun hc => hc.2.2.2 hsync), hb]

/-- C1 witness: a concrete directory sync (one succeeding download, one
failing download, one stale local file) satisfying the theorem: the stale
file is gone, the successful target exists, the failed target is absent but
inside the synced set. -/
theorem C1_witness :
    (FS.ClosedB ⟨[(["d", "stale"], [9])], [[], ["d"]]⟩ = true) ∧
    (sync_skill
        ⟨("s"), .dirMode (.entries (.cons ("a") (.file (some [1]))
          (.cons ("b") (.file none) .nil))), ["d"]⟩
        ⟨⟨[(["d", "stale"], [9])], [[], ["d"]]⟩, 0⟩ =
      .ok (([["d", "a"]], [["d", "stale"]]),
        ⟨⟨[(["d", "a"], [1])], [[], ["d"]]⟩, 3⟩)) ∧
    (∃ o, sync_directory (.entries (.cons ("a") (.file (some [1]))
          (.cons ("b") (.file none) .nil))) ["d"]
          ⟨⟨[(["d", "stale"], [9])], [[], ["d"]]⟩, 0⟩ = .ok o ∧
      o.synced = listingTargets (.entries (.cons ("a") (.file (some [1]))
          (.cons ("b") (.file none) .nil))) ["d"] ∧
      (∀ p, Below ["d"] p →
        (⟨⟨[(["d", "a"], [1])], [[], ["d"]]⟩, 3⟩ : St).fs.isFile p = true → p ∈ o.synced) ∧
      (∀ p c, (p, some c) ∈ listingDownloads (.entries (.cons ("a") (.file (some [1]))
          (.cons ("b") (.file none) .nil))) ["d"] →
        (⟨⟨[(["d", "a"], [1])], [[], ["d"]]⟩, 3⟩ : St).fs.isFile p = true)) :=
  ⟨by decide, by decide,
    C1_dir_sync_file_set_exact ("s")
      (.entries (.cons ("a") (.file (some [1])) (.cons ("b") (.file none) .nil))) ["d"]
      ⟨⟨[(["d", "stale"], [9])], [[], ["d"]]⟩, 0⟩
      ⟨⟨[(["d", "a"], [1])], [[], ["d"]]⟩, 3⟩
      [["d", "a"]] [["d", "stale"]] (by decide) (by decide)⟩

/-- C2 counterexample: a listing response whose body is not valid JSON makes
`fetch_directory_contents` raise `JSONDecodeError` rather than return the
no-content result, so a JSON-parse failure is *not* handled like an HTTP
failure. -/
theorem C2_counterexample :
    fetch_directory_contents .badJson ⟨⟨[], []⟩, 0⟩ =
      (.error .jsonDecode, ⟨⟨[], []⟩, 1⟩) ∧
    (fetch_directory_contents .badJson ⟨⟨[], []⟩, 0⟩).1 ≠ .ok none := by
  exact ⟨rfl, fun hc => Except.noConfusion hc⟩

/-- C2 amended: HTTP-status and transport errors are caught, logged and
mapped to the no-content result `none`, but a response body that is not
valid JSON raises `JSONDecodeError`, which escapes
`fetch_directory_contents` (its `except` clauses catch only the two
`urllib.error` types). -/
theorem C2_amended (st : St) :
    (fetch_directory_contents .httpError st).1 = .ok none ∧
    (fetch_directory_contents .urlError st).1 = .ok none ∧
    (fetch_directory_contents .badJson st).1 = .error .jsonDecode :=
  ⟨rfl, rfl, rfl⟩

/-- C3 counterexample: with the manifest present, a single skill whose
directory listing body is invalid JSON aborts the whole run with an escaped
exception, and the following skill is never processed. -/
theorem C3_counterexample :
    main true [⟨("a"), .dirMode .badJson, ["da"]⟩,
               ⟨("b"), .fileMode (some [1]), ["db"]⟩]
      ⟨⟨[], []⟩, 0⟩ = .error .jsonDecode := rfl

/-- C3 amended: provided every reachable directory-listing body is valid
JSON and no sync target path is an existing local directory or sits
strictly below another target, no exception escapes the top level: the run
over any manifest completes normally (HTTP failures inside skills included).
Without those provisos a `JSONDecodeError` (or `IsADirectoryError`)
propagates and aborts the remaining skills. -/
theorem C3_amended (skills : List Skill) (st : St) (T : List Path)
    (hclean : ∀ sk ∈ skills, skillClean sk = true)
    (htgt : ∀ sk ∈ skills, ∀ q ∈ skillTargets sk, q ∈ T)
    (hT : TargetsOk st.fs.dirs T) :
    ∃ o, main true skills st = .ok o := by
  by_cases hsk : skills.isEmpty
  · exact ⟨(0, ⟨[], [], [], st⟩), by rw [main, if_neg (by simp), if_pos hsk]⟩
  · have hinv : DirsInv st.fs.dirs T st.fs := fun d hd => Or.inl hd
    obtain ⟨o, ho⟩ := processSkills_total skills st st.fs.dirs T hclean htgt hT hinv
    refine ⟨(0, o), ?_⟩
    rw [main, if_neg (by simp), if_neg hsk]
    simp only [ho]

/-- C3 witness: a concrete two-skill manifest (one download that fails over
HTTP, one empty directory listing) runs to normal completion. -/
theorem C3_witness :
    ((∀ sk ∈ [⟨("a"), .fileMode (some [1]), ["da"]⟩,
              ⟨("b"), .dirMode (.entries .nil), ["db"]⟩], skillClean sk = true) ∧
     (∀ sk ∈ [(⟨("a"), .fileMode (some [1]), ["da"]⟩ : Skill),
              ⟨("b"), .dirMode (.entries .nil), ["db"]⟩],
        ∀ q ∈ skillTargets sk, q ∈ [["da"]]) ∧
     TargetsOk (FS.dirs ⟨[], []⟩) [["da"]]) ∧
    (∃ o, main true [⟨("a"), .fileMode (some [1]), ["da"]⟩,
                     ⟨("b"), .dirMode (.entries .nil), ["db"]⟩]
        ⟨⟨[], []⟩, 0⟩ = .ok o) :=
  ⟨⟨by decide, by decide, by decide⟩,
    C3_amended _ ⟨⟨[], []⟩, 0⟩ [["da"]] (by decide) (by decide) (by decide)⟩

/-- C4: when the directory-listing fetch fails with a caught HTTP or
transport error, `sync_directory` returns an empty updated list and an empty
synced set — byte-for-byte the same result as for a genuinely empty remote
directory — and signals no error. -/
theorem C4_listing_failure_like_empty (dest : Path) (st : St) :
    sync_directory .httpError dest st = sync_directory (.entries .nil) dest st ∧
    sync_directory .urlError dest st = sync_directory (.entries .nil) dest st ∧
    sync_directory .httpError dest st = .ok ⟨[], [], bump st⟩ :=
  ⟨rfl, rfl, rfl⟩

/-- C5 counterexample: a destination whose only file is stale ends up as a
remaining empty directory although it was *not* originally empty, refuting
"the root may remain empty only if it was originally empty". -/
theorem C5_counterexample :
    ((remove_stale_files ["d"] [] ⟨[(["d", "f"], [0])], [[], ["d"]]⟩).2.isDir ["d"] = true ∧
     (remove_stale_files ["d"] [] ⟨[(["d", "f"], [0])], [[], ["d"]]⟩).2.hasChild ["d"]
       = false) ∧
    FS.hasChild ⟨[(["d", "f"], [0])], [[], ["d"]]⟩ ["d"] = true := by decide

/-- C5 amended: `remove_stale_files` deletes stale files first and then
sweeps directories in reverse lexicographic order, so that afterwards no
directory strictly below the destination is empty; the destination root
itself is never deleted and may be left empty even when it originally had
contents (all of them stale).  On a well-formed filesystem. -/
theorem C5_amended (dest : Path) (synced : List Path) (fs : FS)
    (hcl : fs.ClosedB = true) :
    (∀ d, Below dest d → (remove_stale_files dest synced fs).2.isDir d = true →
      (remove_stale_files dest synced fs).2.hasChild d = true) ∧
    (fs.isDir dest = true → (remove_stale_files dest synced fs).2.isDir dest = true) :=
  ⟨remove_stale_no_empty hcl, fun h => remove_stale_root h⟩

/-- C5 witness: a nested stale tree (`d/sub/f` stale) is pruned bottom-up;
the theorem applies to it and indeed no empty directory below `d` remains. -/
theorem C5_witness :
    (FS.ClosedB ⟨[(["d", "sub", "f"], [0])], [[], ["d"], ["d", "sub"]]⟩ = true) ∧
    ((∀ d, Below ["d"] d →
        (remove_stale_files ["d"] []
          ⟨[(["d", "sub", "f"], [0])], [[], ["d"], ["d", "sub"]]⟩).2.isDir d = true →
        (remove_stale_files ["d"] []
          ⟨[(["d", "sub", "f"], [0])], [[], ["d"], ["d", "sub"]]⟩).2.hasChild d = true) ∧
     (FS.isDir ⟨[(["d", "sub", "f"], [0])], [[], ["d"], ["d", "sub"]]⟩ ["d"] = true →
        (remove_stale_files ["d"] []
          ⟨[(["d", "sub", "f"], [0])], [[], ["d"], ["d", "sub"]]⟩).2.isDir ["d"] = true)) :=
  ⟨by decide, C5_amended ["d"] [] _ (by decide)⟩

/-- C6: a `sync_file` call that returns (rather than raising) either leaves
the destination file bytes equal to the fetched remote bytes — returning
`true` exactly when they differed before — or the fetch failed and the
whole filesystem, including the destination's prior existence and bytes, is
untouched with `false` returned. -/
theorem C6_file_sync_dichotomy (dl : Option Bytes) (dest : Path) (st st' : St)
    (upd : Bool) (h : sync_file dl dest st = .ok (upd, st')) :
    (dl = none ∧ upd = false ∧ st'.fs = st.fs) ∨
    (∃ c, dl = some c ∧ st'.fs.read_bytes dest = some c ∧
      (upd = true ↔ st.fs.read_bytes dest ≠ some c) ∧
      (upd = false → st'.fs = st.fs)) := by
  obtain ⟨-, hcases⟩ := sync_file_ok_inv h
  rcases hcases with ⟨hdl, hupd, hfs⟩ | ⟨c, hdl, hcase⟩
  · exact Or.inl ⟨hdl, hupd, hfs⟩
  · refine Or.inr ⟨c, hdl, ?_⟩
    rcases hcase with ⟨hupd, hread, hfs⟩ | ⟨hupd, hread, hfs⟩
    · subst hupd
      rw [hfs]
      refine ⟨hread, ?_, fun _ => rfl⟩
      constructor
      · intro hc
        exact absurd hc (by simp)
      · intro hne
        exact absurd hread hne
    · subst hupd
      rw [hfs]
      refine ⟨read_write_self st.fs dest c, ⟨fun _ => hread, fun _ => rfl⟩, ?_⟩
      intro hc
      exact absurd hc (by simp)

/-- C6 witness: writing a new file through `sync_file` lands in the second
branch of the dichotomy with the remote bytes present afterwards. -/
theorem C6_witness :
    (sync_file (some [1]) ["f"] ⟨⟨[], []⟩, 0⟩ =
      .ok (true, ⟨⟨[(["f"], [1])], [[]]⟩, 1⟩)) ∧
    ((some [1] = none ∧ true = false ∧
        (⟨⟨[(["f"], [1])], [[]]⟩, 1⟩ : St).fs = FS.mk [] []) ∨
     (∃ c, some [1] = some c ∧
        (⟨⟨[(["f"], [1])], [[]]⟩, 1⟩ : St).fs.read_bytes ["f"] = some c ∧
        (true = true ↔ FS.read_bytes ⟨[], []⟩ ["f"] ≠ some c) ∧
        (true = false → (⟨⟨[(["f"], [1])], [[]]⟩, 1⟩ : St).fs = FS.mk [] []))) :=
  ⟨by decide, C6_file_sync_dichotomy (some [1]) ["f"] ⟨⟨[], []⟩, 0⟩
    ⟨⟨[(["f"], [1])], [[]]⟩, 1⟩ true (by decide)⟩

/-- C7: when the destination file exists with bytes identical to the
successfully fetched remote bytes, `sync_file` returns `false` and performs
no write at all: the resulting state is the input state with only the
request counter advanced. -/
theorem C7_byte_equality_short_circuit (c : Bytes) (dest : Path) (st : St)
    (h : st.fs.read_bytes dest = some c) :
    sync_file (some c) dest st = .ok (false, bump st) :=
  sync_file_eq h

/-- C7 witness: a destination already holding the remote bytes is left
untouched and reported as not updated. -/
theorem C7_witness :
    (FS.read_bytes ⟨[(["f"], [1])], [[]]⟩ ["f"] = some [1]) ∧
    (sync_file (some [1]) ["f"] ⟨⟨[(["f"], [1])], [[]]⟩, 5⟩ =
      .ok (false, bump ⟨⟨[(["f"], [1])], [[]]⟩, 5⟩)) :=
  ⟨by decide, C7_byte_equality_short_circuit [1] ["f"] ⟨⟨[(["f"], [1])], [[]]⟩, 5⟩ (by decide)⟩

/-- C8 counterexample: a manifest whose two skills have nested destinations
(`d/x` inside `d`): with the remote unchanged and every fetch succeeding,
the second run still updates and removes files — the full sync is not
idempotent for every manifest. -/
theorem C8_counterexample :
    (main true [⟨("a"), .fileMode (some [1]), ["d", "x"]⟩,
                ⟨("b"), .dirMode (.entries .nil), ["d"]⟩]
        ⟨⟨[], []⟩, 0⟩ =
      .ok (0, ⟨[["d", "x"]], [["d", "x"]], [("a"), ("b")], ⟨⟨[], [[], ["d"]]⟩, 2⟩⟩)) ∧
    (main true [⟨("a"), .fileMode (some [1]), ["d", "x"]⟩,
                ⟨("b"), .dirMode (.entries .nil), ["d"]⟩]
        ⟨⟨[], [[], ["d"]]⟩, 2⟩ =
      .ok (0, ⟨[["d", "x"]], [["d", "x"]], [("a"), ("b")], ⟨⟨[], [[], ["d"]]⟩, 4⟩⟩)) ∧
    (skillAllOk ⟨("a"), .fileMode (some [1]), ["d", "x"]⟩ = true ∧
     skillAllOk ⟨("b"), .dirMode (.entries .nil), ["d"]⟩ = true) ∧
    ([["d", "x"]] : List Path) ≠ [] := by decide

/-- C8 amended: for manifests whose skill destinations are pairwise
non-nested (no destination is a prefix of another), whose remotes are fully
fetched with duplicate-free targets, starting from a well-formed
filesystem: a completed run followed by a second run against the unchanged
remote yields zero updated files and zero removed files on the second
run. -/
theorem C8_amended (skills : List Skill) (st : St) (o1 : RunOut) (c : Nat)
    (h1 : main true skills st = .ok (c, o1))
    (hcl : st.fs.ClosedB = true)
    (hsep : DestsSeparated skills)
    (hok : ∀ sk ∈ skills, skillAllOk sk = true ∧ (skillTargets sk).Nodup) :
    ∃ st2, main true skills o1.st = .ok (0, ⟨[], [], [], st2⟩) := by
  by_cases hsk : skills.isEmpty
  · rw [main, if_neg (by simp), if_pos hsk] at h1
    obtain ⟨-, h1b⟩ := Prod.mk.injEq .. ▸ Except.ok.inj h1
    refine ⟨o1.st, ?_⟩
    rw [main, if_neg (by simp), if_pos hsk, ← h1b]
  · rw [main, if_neg (by simp), if_neg hsk] at h1
    cases hps : processSkills skills st with
    | error e =>
      simp only [hps] at h1
      exact Except.noConfusion h1
    | ok o =>
      simp only [hps] at h1
      obtain ⟨-, h1b⟩ := Prod.mk.injEq .. ▸ Except.ok.inj h1
      subst h1b
      obtain ⟨hfacts, -⟩ := processSkills_run1 skills st o hps hcl hsep hok
      obtain ⟨st2, hps2, -⟩ := processSkills_noop skills o.st
        (fun sk hsk' => ⟨(hok sk hsk').1, (hfacts sk hsk').1, (hfacts sk hsk').2⟩)
      refine ⟨st2, ?_⟩
      rw [main, if_neg (by simp), if_neg hsk]
      simp only [hps2]

/-- C8 witness: two skills with disjoint destinations; the first full run
populates both mirrors and the second run reports no changes. -/
theorem C8_witness :
    ((main true [⟨("a"), .fileMode (some [1]), ["da"]⟩,
                 ⟨("b"), .dirMode (.entries (.cons ("t") (.file (some [2])) .nil)), ["db"]⟩]
        ⟨⟨[], []⟩, 0⟩ =
      .ok (0, ⟨[["da"], ["db", "t"]], [], [("a"), ("b")],
        ⟨⟨[(["db", "t"], [2]), (["da"], [1])], [[], ["db"]]⟩, 3⟩⟩)) ∧
     (FS.ClosedB ⟨[], []⟩ = true) ∧
     DestsSeparated [⟨("a"), .fileMode (some [1]), ["da"]⟩,
       ⟨("b"), .dirMode (.entries (.cons ("t") (.file (some [2])) .nil)), ["db"]⟩] ∧
     (∀ sk ∈ [(⟨("a"), .fileMode (some [1]), ["da"]⟩ : Skill),
              ⟨("b"), .dirMode (.entries (.cons ("t") (.file (some [2])) .nil)), ["db"]⟩],
        skillAllOk sk = true ∧ (skillTargets sk).Nodup)) ∧
    (∃ st2, main true [⟨("a"), .fileMode (some [1]), ["da"]⟩,
        ⟨("b"), .dirMode (.entries (.cons ("t") (.file (some [2])) .nil)), ["db"]⟩]
        (⟨[["da"], ["db", "t"]], [], [("a"), ("b")],
          ⟨⟨[(["db", "t"], [2]), (["da"], [1])], [[], ["db"]]⟩, 3⟩⟩ : RunOut).st =
      .ok (0, ⟨[], [], [], st2⟩)) :=
  ⟨⟨by decide, by decide, by decide, by decide⟩,
    C8_amended
      [⟨("a"), .fileMode (some [1]), ["da"]⟩,
       ⟨("b"), .dirMode (.entries (.cons ("t") (.file (some [2])) .nil)), ["db"]⟩]
      ⟨⟨[], []⟩, 0⟩
      ⟨[["da"], ["db", "t"]], [], [("a"), ("b")],
        ⟨⟨[(["db", "t"], [2]), (["da"], [1])], [[], ["db"]]⟩, 3⟩⟩ 0
      (by decide) (by decide) (by decide) (by decide)⟩

/-- C9: exit-code behaviour of `main`: a missing manifest exits with code 1
and the state — including the network-request counter — untouched; a
manifest with no skills exits with code 0 and the state untouched; and
whenever the skill loop completes (even with individual skills failing over
HTTP), the exit code is 0. -/
theorem C9_exit_codes (skills : List Skill) (st : St) :
    (main false skills st = .ok (1, ⟨[], [], [], st⟩)) ∧
    (main true [] st = .ok (0, ⟨[], [], [], st⟩)) ∧
    (∀ o, processSkills skills st = .ok o → main true skills st = .ok (0, o)) := by
  refine ⟨rfl, rfl, ?_⟩
  intro o ho
  by_cases hsk : skills.isEmpty
  · rw [List.isEmpty_iff] at hsk
    subst hsk
    simp only [processSkills] at ho
    obtain rfl := Except.ok.inj ho
    rfl
  · rw [main, if_neg (by simp), if_neg (by rw [List.isEmpty_iff] at hsk ⊢; exact hsk)]
    simp only [ho]

/-- C9 witness: a one-skill manifest whose single download fails over HTTP
still completes with exit code 0 (and the two early-exit branches at a
concrete state). -/
theorem C9_witness :
    (processSkills [⟨("a"), .fileMode none, ["f"]⟩] ⟨⟨[], []⟩, 0⟩ =
      .ok ⟨[], [], [], ⟨⟨[], []⟩, 1⟩⟩) ∧
    (main false [⟨("a"), .fileMode none, ["f"]⟩] ⟨⟨[], []⟩, 0⟩ =
      .ok (1, ⟨[], [], [], ⟨⟨[], []⟩, 0⟩⟩)) ∧
    (main true [] ⟨⟨[], []⟩, 0⟩ = .ok (0, ⟨[], [], [], ⟨⟨[], []⟩, 0⟩⟩)) ∧
    (main true [⟨("a"), .fileMode none, ["f"]⟩] ⟨⟨[], []⟩, 0⟩ =
      .ok (0, ⟨[], [], [], ⟨⟨[], []⟩, 1⟩⟩)) :=
  ⟨by decide,
    (C9_exit_codes [⟨("a"), .fileMode none, ["f"]⟩] ⟨⟨[], []⟩, 0⟩).1,
    (C9_exit_codes [⟨("a"), .fileMode none, ["f"]⟩] ⟨⟨[], []⟩, 0⟩).2.1,
    (C9_exit_codes [⟨("a"), .fileMode none, ["f"]⟩] ⟨⟨[], []⟩, 0⟩).2.2 _ (by decide)⟩

/-- C10: in `sync_directory` every file entry's destination joins the synced
path set before its download is attempted, so a file entry whose download
fails still shields an existing local file at that path: after the full
directory-mode `sync_skill` (including the pruning pass) the old bytes are
untouched.  Duplicate-free targets guarantee no sibling writes the same
path. -/
theorem C10_failed_download_shielded (name : String) (lo : ListingOutcome)
    (dest : Path) (st st' : St) (upd rem : List Path) (p : Path) (b : Bytes)
    (h : sync_skill ⟨name, .dirMode lo, dest⟩ st = .ok ((upd, rem), st'))
    (hnd : (listingTargets lo dest).Nodup)
    (hfail : (p, none) ∈ listingDownloads lo dest)
    (hold : st.fs.read_bytes p = some b) :
    p ∈ listingTargets lo dest ∧ st'.fs.read_bytes p = some b := by
  have hmemT : p ∈ listingTargets lo dest := mem_listingTargets.mpr ⟨none, hfail⟩
  rw [sync_skill_dir_eq] at h
  cases hsd : sync_directory lo dest st with
  | error e => rw [hsd] at h; exact Except.noConfusion h
  | ok o =>
    rw [hsd] at h
    obtain ⟨-, h2⟩ := Prod.mk.injEq .. ▸ Except.ok.inj h
    obtain ⟨g1, g2, -, -, -, -, -⟩ := sync_ok_facts.1 lo dest st o hsd
    have hnosucc : ∀ c, (p, some c) ∉ listingDownloads lo dest := by
      intro c hc
      have := nodup_fst_eq hnd hfail hc
      exact Option.noConfusion this
    have hkeep : o.st.fs.read_bytes p = some b := by
      rw [g2 p hnosucc]
      exact hold
    have hsync : p ∈ o.synced := by
      rw [g1]
      exact hmemT
    refine ⟨hmemT, ?_⟩
    rw [← h2]
    show (remove_stale_files dest o.synced o.st.fs).2.read_bytes p = some b
    rw [remove_stale_read, if_neg (fun hc => hc.2.2.2 hsync), hkeep]

/-- C10 witness: a local file at the destination of a failing download
survives the sync and the prune with its bytes intact. -/
theorem C10_witness :
    ((sync_skill ⟨("s"), .dirMode (.entries (.cons ("a") (.file none) .nil)), ["d"]⟩
        ⟨⟨[(["d", "a"], [7])], [[], ["d"]]⟩, 0⟩ =
      .ok (([], []), ⟨⟨[(["d", "a"], [7])], [[], ["d"]]⟩, 2⟩)) ∧
     (listingTargets (.entries (.cons ("a") (.file none) .nil)) ["d"]).Nodup ∧
     ((["d", "a"], (none : Option Bytes)) ∈
        listingDownloads (.entries (.cons ("a") (.file none) .nil)) ["d"]) ∧
     (FS.read_bytes ⟨[(["d", "a"], [7])], [[], ["d"]]⟩ ["d", "a"] = some [7])) ∧
    (["d", "a"] ∈ listingTargets (.entries (.cons ("a") (.file none) .nil)) ["d"] ∧
      (⟨⟨[(["d", "a"], [7])], [[], ["d"]]⟩, 2⟩ : St).fs.read_bytes ["d", "a"] = some [7]) :=
  ⟨⟨by decide, by decide, by decide, by decide⟩,
    C10_failed_download_shielded ("s") (.entries (.cons ("a") (.file none) .nil)) ["d"]
      ⟨⟨[(["d", "a"], [7])], [[], ["d"]]⟩, 0⟩
      ⟨⟨[(["d", "a"], [7])], [[], ["d"]]⟩, 2⟩ [] [] ["d", "a"] [7]
      (by decide) (by decide) (by decide) (by decide)⟩

end SyncSkills
